import Mathlib

/-!
Verification of the symbolic-constraint compiler in `mystic/symbolic.py`.

Text is modelled as `List Char` (Python `str`), numeric values as `ℚ`
(Python floats; every value exercised by the claims is exactly
representable, so exact rational arithmetic agrees with IEEE evaluation
on them), and raised exceptions as `Except PyErr`.

The Python string primitives used by the source (`str.replace`,
`str.split`, `str.strip`, `str.rstrip`/`lstrip` with a char set,
`re.findall` for a literal pattern followed by digits) are defined
below from first principles with Python's semantics, and the functions
of `symbolic.py` are translated on top of them keeping the source names
(`penalty_parser` and `constraints_parser` are spelled `penaltyParser`
and `constraintsParser`).
-/

/-- Python exceptions that the modelled code can raise. -/
inductive PyErr where
  | nameError
  | syntaxError
  | typeError
  | indexError
  | valueError
  | zeroDivisionError
  | dimensionError
  deriving DecidableEq, Repr

instance {ε α : Type} [DecidableEq ε] [DecidableEq α] : DecidableEq (Except ε α) := fun a b =>
  match a, b with
  | .ok x, .ok y =>
      if h : x = y then .isTrue (by rw [h]) else .isFalse (by simp [h])
  | .error x, .error y =>
      if h : x = y then .isTrue (by rw [h]) else .isFalse (by simp [h])
  | .ok _, .error _ => .isFalse (by simp)
  | .error _, .ok _ => .isFalse (by simp)

/-! ## Python string primitives -/

/-- Drop characters satisfying `p` from the right end (used for Python
`str.rstrip` with an explicit character set). -/
def rdropCh (p : Char → Bool) (s : List Char) : List Char :=
  (s.reverse.dropWhile p).reverse

/-- Python `str.strip()`: remove whitespace from both ends. -/
def pystrip (s : List Char) : List Char :=
  rdropCh Char.isWhitespace (s.dropWhile Char.isWhitespace)

/-- Python `str.lstrip()`: remove whitespace from the left end. -/
def pylstrip (s : List Char) : List Char :=
  s.dropWhile Char.isWhitespace

/-- Python `str.rstrip('=')`. -/
def rstripEq (s : List Char) : List Char :=
  rdropCh (fun c => c = '=') s

/-- Python `str.lstrip('=')`. -/
def lstripEq (s : List Char) : List Char :=
  s.dropWhile (fun c => c = '=')

/-- Python `str.split(sep)` for a single-character separator: split at
every occurrence, keeping empty pieces.  The result is never `[]`. -/
def pysplit (sep : Char) : List Char → List (List Char)
  | [] => [[]]
  | c :: s =>
    if c = sep then [] :: pysplit sep s
    else
      match pysplit sep s with
      | [] => [[c]]
      | h :: t => (c :: h) :: t

/-- Worker for `pyreplace`, structurally recursive on a fuel argument
so that it evaluates by kernel reduction; one unit of fuel is spent per
character position examined, so any fuel of at least the string length
computes the total function. -/
def pyreplaceGo (old new : List Char) : Nat → List Char → List Char
  | _, [] => []
  | 0, s => s
  | fuel + 1, c :: t =>
    if old ≠ [] ∧ old.isPrefixOf (c :: t) then
      new ++ pyreplaceGo old new fuel ((c :: t).drop old.length)
    else
      c :: pyreplaceGo old new fuel t

/-- Python `str.replace(old, new)`: replace every non-overlapping
occurrence of `old`, scanning left to right.  (As in Python, an empty
`old` is never used by the source; here it yields the unchanged
string.) -/
def pyreplace (s old new : List Char) : List Char :=
  pyreplaceGo old new s.length s

/-- Python `sub in s` / `s.find(sub) != -1`. -/
def hasSub (s pat : List Char) : Bool :=
  pat.isPrefixOf s ||
    match s with
    | [] => false
    | _ :: t => hasSub t pat

/-- Worker for `pysplitStr`, fuelled as `pyreplaceGo` is. -/
def pysplitStrGo (sep : List Char) : Nat → List Char → List (List Char)
  | _, [] => [[]]
  | 0, s => [s]
  | fuel + 1, c :: t =>
    if sep ≠ [] ∧ sep.isPrefixOf (c :: t) then
      [] :: pysplitStrGo sep fuel ((c :: t).drop sep.length)
    else
      match pysplitStrGo sep fuel t with
      | [] => [[c]]
      | h :: rest => (c :: h) :: rest

/-- Python `str.split(sep)` for a multi-character separator. -/
def pysplitStr (s sep : List Char) : List (List Char) :=
  pysplitStrGo sep s.length s

/-- Python `str.join` on a list of pieces. -/
def pyjoin (sep : List Char) : List (List Char) → List Char
  | [] => []
  | [p] => p
  | p :: rest => p ++ sep ++ pyjoin sep rest

/-- Parse a nonempty run of decimal digits (Python `int` of a digit
string). -/
def digitsToNat (s : List Char) : Nat :=
  s.foldl (fun a c => a * 10 + (c.toNat - '0'.toNat)) 0

/-! ## Variable renaming and extraction (`replace_variables`, `get_variables`) -/

/-- Internal: `re.findall(base + '[0-9]+', line)` for a literal
(metacharacter-free) `base`, Python scanning semantics: leftmost
non-overlapping matches, each with a maximal (greedy) digit run.
The source's call sites use the literal bases `'x'`, `'_'` and the
caller-supplied marker.  Worker, fuelled as `pyreplaceGo` is. -/
def findVarGo (base : List Char) : Nat → List Char → List (List Char)
  | _, [] => []
  | 0, _ => []
  | fuel + 1, c :: t =>
    if base.isPrefixOf (c :: t) ∧ (((c :: t).drop base.length).headD ' ').isDigit then
      (base ++ ((c :: t).drop base.length).takeWhile Char.isDigit) ::
        findVarGo base fuel (((c :: t).drop base.length).dropWhile Char.isDigit)
    else
      findVarGo base fuel t

def findVar (base s : List Char) : List (List Char) :=
  findVarGo base s.length s

/-- Translation of `get_variables(constraints, variables)` for a string
`variables` base: scan each line for `base` followed by digits, and
collect distinct names in first-seen order.  (The list-of-names mode of
the source recurses through `replace_variables` and is not needed by
the claims.) -/
def get_variables (constraints : List Char) (vars : List Char) : List (List Char) :=
  (pysplit '\n' constraints).foldl
    (fun acc line =>
      (findVar vars line).foldl
        (fun a v => if v ∈ a then a else a ++ [v]) acc)
    []

/-- The improbable internal marker used by `replace_variables` when the
requested marker collides with a variable name. -/
def internalMarker : List Char := '_' :: List.replicate 10 '$'

/-- Python's stable sort by decreasing name length (`variablescopy.sort`
with the comparator `len(y) - len(x)`); any stable sort by this key
computes the same list, here insertion sort. -/
def sortLenDesc (vars : List (List Char)) : List (List Char) :=
  List.insertionSort (fun a b => b.length ≤ a.length) vars

/-- Translation of `replace_variables(constraints, variables, markers)`
for a string `markers` (the list-of-markers mode recurses through the
`'_'` base and is not needed by the claims): sort the variable names by
decreasing length, map each to its first index in `variables`, replace
each name with `marker + str(i)`, and finally replace the internal
marker (used when `markers` collides with a variable name) with the
requested one. -/
def replace_variables (constraints : List Char) (vars : List (List Char))
    (markers : List Char) : List Char :=
  let variablescopy := sortLenDesc vars
  let indices := variablescopy.map (fun item => List.indexOf item vars)
  let marker := if vars.contains markers then internalMarker else markers
  let constraints := indices.foldl
    (fun c i => pyreplace c (vars.getD i []) (marker ++ (Nat.repr i).data))
    constraints
  pyreplace constraints marker markers

/-! ## Constraint parsing (`penalty_parser`, `constraints_parser`) -/

/-- Dimension resolution shared by both parsers: `nvars` if given, else
one plus the largest index among the `x<digits>` names found in the
text (`int(v.strip('x'))`), else `0`. -/
def parserNdim (constraints : List Char) (nvars : Option Nat) : Nat :=
  match nvars with
  | some n => n
  | none =>
    let myvar := get_variables constraints ['x']
    if myvar ≠ [] then
      (myvar.map (fun v =>
        digitsToNat (rdropCh (fun c => c = 'x') (v.dropWhile (fun c => c = 'x'))))).foldl
        max 0 + 1
    else 0

/-- The variable-substitution loop of both parsers: replace
`'x' + str(i)` with `'x[' + str(i) + ']'`, iterating indices in reverse
so that e.g. `x1` is not clipped out of `x10`. -/
def fixLine (ndim : Nat) (line : List Char) : List Char :=
  (List.range ndim).reverse.foldl
    (fun s i =>
      pyreplace s ('x' :: (Nat.repr i).data) ("x[".data ++ (Nat.repr i).data ++ [']']))
    line

/-- The aggregate-name rewrites of `penalty_parser` (toward numpy
vocabulary): `spread(` to `ptp(`, `mean(` to `average(`, `variance(` to
`var(`, each guarded by a find as in the source. -/
def aggNumpy (c : List Char) : List Char :=
  let c := if hasSub c "spread(".data then pyreplace c "spread(".data "ptp(".data else c
  let c := if hasSub c "mean(".data then pyreplace c "mean(".data "average(".data else c
  if hasSub c "variance(".data then pyreplace c "variance(".data "var(".data else c

/-- The aggregate-name rewrites of `constraints_parser` (toward mystic
vocabulary): `ptp(` to `spread(`, `average(` to `mean(`, `var(` to
`variance(`, `prod(` to `product(`. -/
def aggMystic (c : List Char) : List Char :=
  let c := if hasSub c "ptp(".data then pyreplace c "ptp(".data "spread(".data else c
  let c := if hasSub c "average(".data then pyreplace c "average(".data "mean(".data else c
  let c := if hasSub c "var(".data then pyreplace c "var(".data "variance(".data else c
  if hasSub c "prod(".data then pyreplace c "prod(".data "product(".data else c

/-- The relational-split cascade shared by both parsers: split on `>`,
and if that produced a single piece split on `<`, and if that also
produced a single piece split on `=` (a line with none of the three
operators falls through with direction `=` and a one-piece split, as in
the source, where only a message is printed). -/
def relSplit (constraint : List Char) : Char × List (List Char) :=
  let split := pysplit '>' constraint
  if split.length ≠ 1 then ('>', split)
  else
    let split := pysplit '<' constraint
    if split.length ≠ 1 then ('<', split)
    else ('=', pysplit '=' constraint)

/-- One loop iteration of `penalty_parser`: the pair of additions
(inequality list, equality list) contributed by one line. -/
def penaltyLine (ndim : Nat) (line : List Char) : List (List Char) × List (List Char) :=
  if pystrip line = [] then ([], [])
  else
    let constraint := aggNumpy (pystrip (fixLine ndim line))
    let ds := relSplit constraint
    let lhs := pystrip (rstripEq (ds.2.headD []))
    let rhs := pystrip (lstripEq (ds.2.getLastD []))
    let expression := lhs ++ " - (".data ++ rhs ++ [')']
    if ds.1 = '=' then ([], [expression])
    else if ds.1 = '<' then ([expression], [])
    else (["-(".data ++ expression ++ [')']], [])

/-- Translation of `penalty_parser(constraints, variables='x', nvars)`:
the pair (inequality expressions, equality expressions). -/
def penaltyParser (constraints : List Char) (nvars : Option Nat) :
    List (List Char) × List (List Char) :=
  let ndim := parserNdim constraints nvars
  (pysplit '\n' constraints).foldl
    (fun acc line =>
      (acc.1 ++ (penaltyLine ndim line).1, acc.2 ++ (penaltyLine ndim line).2))
    ([], [])

/-- One `impose_*` left-hand-side rewrite of `constraints_parser`: if
`tag + '('` occurs in the left side, strip up to the tag and wrap the
right side in the matching inverse projector call. -/
def imposeRewrite (tag imp : List Char) (lr : List Char × List Char) :
    List Char × List Char :=
  if hasSub lr.1 (tag ++ ['(']) then
    let lhs := (pysplitStr lr.1 tag).getLastD []
    (lhs, [' '] ++ imp ++ "( (".data ++ pylstrip lr.2 ++ "),".data ++ lhs ++ [')'])
  else lr

/-- One loop iteration of `constraints_parser`: the solver expressions
contributed by one line (empty for a blank line).  The final
`lhs, rhs = expression.split('=')` unpacking of the source raises a
`ValueError` when the expression does not contain exactly one `=`. -/
def constraintsLine (ndim : Nat) (line : List Char) : Except PyErr (List (List Char)) :=
  if pystrip line = [] then .ok []
  else
    let constraint := aggMystic (pystrip (fixLine ndim line))
    let ds := relSplit constraint
    let lhs0 := pystrip (rstripEq (ds.2.headD []))
    let rhs0 := pystrip (lstripEq (ds.2.getLastD []))
    let expression :=
      if ds.1 = '>' then lhs0 ++ " = max(".data ++ rhs0 ++ ", ".data ++ lhs0 ++ [')']
      else if ds.1 = '<' then lhs0 ++ " = min(".data ++ rhs0 ++ ", ".data ++ lhs0 ++ [')']
      else lhs0 ++ " = ".data ++ rhs0
    match pysplit '=' expression with
    | [lhs, rhs] =>
      let lr := imposeRewrite "spread".data "impose_spread".data (lhs, rhs)
      let lr := imposeRewrite "mean".data "impose_mean".data lr
      let lr := imposeRewrite "variance".data "impose_variance".data lr
      let lr := imposeRewrite "sum".data "impose_sum".data lr
      let lr := imposeRewrite "product".data "impose_product".data lr
      .ok [pyjoin ['='] [lr.1, lr.2]]
    | _ => .error .valueError

/-- Translation of `constraints_parser(constraints, variables='x', nvars)`:
the tuple of solver assignment expressions, in line order. -/
def constraintsParser (constraints : List Char) (nvars : Option Nat) :
    Except PyErr (List (List Char)) :=
  let ndim := parserNdim constraints nvars
  (pysplit '\n' constraints).foldlM
    (fun acc line => (constraintsLine ndim line).map (fun e => acc ++ e)) []


/-! ## Call-time evaluation of expression text

`generate_conditions` builds functions of the form
`def f(x): return eval('EXPR')` and `generate_solvers` builds
`def f(x): exec('EXPR'); return x`: in both, the expression string is a
literal inside the built function's body, so Python compiles and
evaluates it only when the built function is invoked.  The evaluator
below models that call-time `eval` on the expression subset the
compiled constraints use (numbers, `x[i]`, arithmetic, calls).  The
execution namespace is modelled by an explicit environment holding the
builtins the claims exercise; a name absent from it (such as one never
imported by the source's `from math import *; from numpy import *`)
raises `NameError` during evaluation, exactly as in Python. -/

/-- Tokens of the Python expression subset. -/
inductive PTok where
  | num (q : ℚ)
  | ident (s : List Char)
  | lparen
  | rparen
  | lbrack
  | rbrack
  | comma
  | plus
  | minus
  | star
  | slash
  deriving DecidableEq, Repr

def isIdentStart (c : Char) : Bool := c.isAlpha || c = '_'

def isIdentChar (c : Char) : Bool := c.isAlphanum || c = '_'

/-- Tokenizer (fuelled; one unit per step, each step consumes at least
one character). -/
def tokenizeGo : Nat → List Char → Except PyErr (List PTok)
  | _, [] => .ok []
  | 0, _ => .error .syntaxError
  | fuel + 1, c :: t =>
    if c.isWhitespace then tokenizeGo fuel t
    else if c = '(' then (tokenizeGo fuel t).map (PTok.lparen :: ·)
    else if c = ')' then (tokenizeGo fuel t).map (PTok.rparen :: ·)
    else if c = '[' then (tokenizeGo fuel t).map (PTok.lbrack :: ·)
    else if c = ']' then (tokenizeGo fuel t).map (PTok.rbrack :: ·)
    else if c = ',' then (tokenizeGo fuel t).map (PTok.comma :: ·)
    else if c = '+' then (tokenizeGo fuel t).map (PTok.plus :: ·)
    else if c = '-' then (tokenizeGo fuel t).map (PTok.minus :: ·)
    else if c = '*' then (tokenizeGo fuel t).map (PTok.star :: ·)
    else if c = '/' then (tokenizeGo fuel t).map (PTok.slash :: ·)
    else if c.isDigit then
      let ip := (c :: t).takeWhile Char.isDigit
      match (c :: t).dropWhile Char.isDigit with
      | '.' :: r2 =>
        let fr := r2.takeWhile Char.isDigit
        (tokenizeGo fuel (r2.dropWhile Char.isDigit)).map
          (PTok.num ((digitsToNat ip : ℚ) + (digitsToNat fr : ℚ) / (10 : ℚ) ^ fr.length) :: ·)
      | r1 => (tokenizeGo fuel r1).map (PTok.num (digitsToNat ip : ℚ) :: ·)
    else if isIdentStart c then
      (tokenizeGo fuel ((c :: t).dropWhile isIdentChar)).map
        (PTok.ident ((c :: t).takeWhile isIdentChar) :: ·)
    else .error .syntaxError

def tokenize (s : List Char) : Except PyErr (List PTok) :=
  tokenizeGo s.length s

/-- A value in the modelled execution namespace: a callable over a
Python argument tuple. -/
def PyFun := List ℚ → Except PyErr ℚ

def PyEnv := List (List Char × PyFun)

def lookupEnv (env : PyEnv) (nm : List Char) : Option PyFun :=
  match env with
  | [] => none
  | (k, f) :: rest => if k = nm then some f else lookupEnv rest nm

/-- The builtins exercised by the compiled constraint expressions of
the claims.  Any other name — in particular one that is unbound in the
Python execution namespace as well — resolves to `NameError` at
evaluation time. -/
def defaultEnv : PyEnv :=
  [("max".data, fun args => match args with
      | [a, b] => .ok (max a b)
      | _ => .error .typeError),
   ("min".data, fun args => match args with
      | [a, b] => .ok (min a b)
      | _ => .error .typeError),
   ("abs".data, fun args => match args with
      | [a] => .ok |a|
      | _ => .error .typeError)]

mutual

/-- Additive level of the Pratt evaluator over tokens. -/
def parseE : Nat → PyEnv → List ℚ → List PTok → Except PyErr (ℚ × List PTok)
  | 0, _, _, _ => .error .syntaxError
  | fuel + 1, env, x, ts => do
    let (v, ts1) ← parseT fuel env x ts
    parseEAux fuel env x v ts1

def parseEAux : Nat → PyEnv → List ℚ → ℚ → List PTok → Except PyErr (ℚ × List PTok)
  | 0, _, _, _, _ => .error .syntaxError
  | fuel + 1, env, x, v, ts =>
    match ts with
    | .plus :: r => do
      let (w, r1) ← parseT fuel env x r
      parseEAux fuel env x (v + w) r1
    | .minus :: r => do
      let (w, r1) ← parseT fuel env x r
      parseEAux fuel env x (v - w) r1
    | _ => .ok (v, ts)

/-- Multiplicative level. -/
def parseT : Nat → PyEnv → List ℚ → List PTok → Except PyErr (ℚ × List PTok)
  | 0, _, _, _ => .error .syntaxError
  | fuel + 1, env, x, ts => do
    let (v, ts1) ← parseF fuel env x ts
    parseTAux fuel env x v ts1

def parseTAux : Nat → PyEnv → List ℚ → ℚ → List PTok → Except PyErr (ℚ × List PTok)
  | 0, _, _, _, _ => .error .syntaxError
  | fuel + 1, env, x, v, ts =>
    match ts with
    | .star :: r => do
      let (w, r1) ← parseF fuel env x r
      parseTAux fuel env x (v * w) r1
    | .slash :: r => do
      let (w, r1) ← parseF fuel env x r
      if w = 0 then .error .zeroDivisionError
      else parseTAux fuel env x (v / w) r1
    | _ => .ok (v, ts)

/-- Unary minus. -/
def parseF : Nat → PyEnv → List ℚ → List PTok → Except PyErr (ℚ × List PTok)
  | 0, _, _, _ => .error .syntaxError
  | fuel + 1, env, x, ts =>
    match ts with
    | .minus :: r => do
      let (v, r1) ← parseF fuel env x r
      .ok (-v, r1)
    | _ => parseA fuel env x ts

/-- Atoms: numbers, parenthesised expressions, the subscripted point
`x[i]`, and calls.  Name lookup happens before argument evaluation, as
in CPython. -/
def parseA : Nat → PyEnv → List ℚ → List PTok → Except PyErr (ℚ × List PTok)
  | 0, _, _, _ => .error .syntaxError
  | fuel + 1, env, x, ts =>
    match ts with
    | .num q :: r => .ok (q, r)
    | .lparen :: r => do
      let (v, r1) ← parseE fuel env x r
      match r1 with
      | .rparen :: r2 => .ok (v, r2)
      | _ => .error .syntaxError
    | .ident nm :: .lbrack :: r =>
      if nm = ['x'] then do
        let (v, r1) ← parseE fuel env x r
        match r1 with
        | .rbrack :: r2 =>
          if v.den = 1 ∧ 0 ≤ v.num then
            if h : v.num.toNat < x.length then .ok (x.get ⟨v.num.toNat, h⟩, r2)
            else .error .indexError
          else .error .typeError
        | _ => .error .syntaxError
      else
        match lookupEnv env nm with
        | none => .error .nameError
        | some _ => .error .typeError
    | .ident nm :: .lparen :: r =>
      match lookupEnv env nm with
      | none => .error .nameError
      | some f => do
        let (args, r1) ← parseArgs fuel env x r
        match f args with
        | .ok v => .ok (v, r1)
        | .error e => .error e
    | .ident nm :: r =>
      if nm = ['x'] then .error .typeError
      else
        match lookupEnv env nm with
        | none => .error .nameError
        | some _ => .ok (0, r)
    | _ => .error .syntaxError

/-- Argument list after an opening parenthesis, up to and including the
closing one. -/
def parseArgs : Nat → PyEnv → List ℚ → List PTok → Except PyErr (List ℚ × List PTok)
  | 0, _, _, _ => .error .syntaxError
  | fuel + 1, env, x, ts => do
    let (v, r1) ← parseE fuel env x ts
    match r1 with
    | .comma :: r2 => do
      let (vs, r3) ← parseArgs fuel env x r2
      .ok (v :: vs, r3)
    | .rparen :: r2 => .ok ([v], r2)
    | _ => .error .syntaxError

end

/-- Call-time `eval` of an expression string against the point `x`. -/
def pyEval (expr : List Char) (x : List ℚ) : Except PyErr ℚ := do
  let ts ← tokenize expr
  let (v, rest) ← parseE (2 * ts.length + 4) defaultEnv x ts
  match rest with
  | [] => .ok v
  | _ => .error .syntaxError


/-! ## Solver statements and the function builders -/

/-- Parse an index-assignment target `x[i]` (stripped), the form every
claim-relevant solver expression assigns to; the `impose_*` aggregate
targets rewrite the left-hand side away and are not exercised by the
claims. -/
def parseTarget (tgt : List Char) : Except PyErr Nat :=
  match pystrip tgt with
  | 'x' :: '[' :: rest =>
    if rest.takeWhile Char.isDigit ≠ [] ∧ rest.dropWhile Char.isDigit = [']'] then
      .ok (digitsToNat (rest.takeWhile Char.isDigit))
    else .error .syntaxError
  | _ => .error .syntaxError

/-- Call-time `exec` of a solver assignment statement `x[i] = RHS`
against the point `x`: evaluate the right-hand side, then store it at
index `i` (out-of-range indices raise `IndexError`, as in Python). -/
def execAssign (stmt : List Char) (x : List ℚ) : Except PyErr (List ℚ) :=
  match pysplit '=' stmt with
  | [tgt, rhs] => do
    let i ← parseTarget tgt
    let v ← pyEval rhs x
    if i < x.length then .ok (x.set i v) else .error .indexError
  | _ => .error .syntaxError

/-- The generated wrapper `def f(x): return eval('EXPR')` is itself
compiled at build time: only a character that breaks the quoted literal
(a quote, a backslash, a newline) can make that build-time compile
fail; the expression text is otherwise carried opaquely into the
call-time `eval`. -/
def exprLiteralSafe (e : List Char) : Bool :=
  !(e.contains (Char.ofNat 39) || e.contains (Char.ofNat 92) || e.contains '\n')

/-- A condition function built by `generate_conditions`: its
equality/inequality provenance (from the generated `__name__`), its
docstring (the expression text), and the call-time evaluator. -/
structure CondFn where
  isIneq : Bool
  doc : List Char
  fn : List ℚ → Except PyErr ℚ

def buildCondFn (isIneq : Bool) (expr : List Char) : Except PyErr CondFn :=
  if exprLiteralSafe expr then .ok ⟨isIneq, expr, fun x => pyEval expr x⟩
  else .error .syntaxError

/-- Translation of `generate_conditions(constraints, variables='x',
nvars)`: parse to penalty expressions, then build one condition
function per expression (equality container first, as in the source's
loop order).  Building compiles only the wrapper `def`; the expression
is evaluated when the condition is first invoked. -/
def generate_conditions (constraints : List Char) (nvars : Option Nat) :
    Except PyErr (List CondFn × List CondFn) := do
  let pe := penaltyParser constraints nvars
  let eqs ← pe.2.mapM (buildCondFn false)
  let ineqs ← pe.1.mapM (buildCondFn true)
  .ok (ineqs, eqs)

/-- A solver function built by `generate_solvers`: its docstring (the
assignment text) and the call-time executor. -/
structure SolverFn where
  doc : List Char
  fn : List ℚ → Except PyErr (List ℚ)

def buildSolverFn (expr : List Char) : Except PyErr SolverFn :=
  if exprLiteralSafe expr then .ok ⟨expr, fun x => execAssign expr x⟩
  else .error .syntaxError

/-- Translation of `generate_solvers(constraints, variables='x',
nvars)`: parse to solver assignments, then build one solver function
per assignment; as with conditions, the statement is executed only when
the built solver is invoked. -/
def generate_solvers (constraints : List Char) (nvars : Option Nat) :
    Except PyErr (List SolverFn) := do
  let cs ← constraintsParser constraints nvars
  cs.mapM buildSolverFn

/-- Observable result of one call to a built solver.  The built body is
`exec('x[i] = RHS'); return x`, where `x` is the parameter bound to the
caller's list object: the item assignment mutates that list in place
(no copy is made anywhere in `generate_solvers`) and `return x` returns
the very same object, so the returned value and the caller's list after
the call are one and the same. -/
structure SolverCall where
  ret : List ℚ
  caller : List ℚ
  deriving DecidableEq

def solverCall (stmt : List Char) (x : List ℚ) : Except PyErr SolverCall :=
  (execAssign stmt x).map (fun y => ⟨y, y⟩)

/-! ## Composition (`generate_constraint`, `generate_penalty`) -/

/-- Modelled from the spec: `mystic.coupler.inner` (the default
composition kind of §4.7) is not under `src/`.  It wraps the
accumulated constraint function `cf` so that the newly added solver
runs first and the accumulator is applied to its output:
`inner(solver)(cf) = lambda x: cf(solver(x))`.  This direction is
pinned by the doctests of `generate_constraint` in
`src/mystic/symbolic.py`: with the solvers `x[2] = x[0]/2.` then
`x[0] = max(0., x[0])` the composed constraint maps `[-1, 2, -3]` to
`[0.0, 2, 0.0]`, and in the first doctest `[1.0, 0.0, 1.0]` maps to
`[1.5838531634528576, 2.0, 1.0] = [cos(2.0)+2, 2.0, 1.0]`; both values
require the later-declared solver to run before the earlier ones. -/
def inner (solver cf : List ℚ → Except PyErr (List ℚ)) :
    List ℚ → Except PyErr (List ℚ) :=
  fun x => solver x >>= cf

/-- Translation of the composition loop of `generate_constraint` under
the default `ctype` (`inner` for every solver): starting from the
identity, `cf = inner(condition)(cf)` for each solver in declaration
order. -/
def generate_constraint (conditions : List (List ℚ → Except PyErr (List ℚ))) :
    List ℚ → Except PyErr (List ℚ) :=
  conditions.foldl (fun cf c => inner c cf) (fun x => .ok x)

/-- A penalty condition as consumed by `generate_penalty`: its
provenance tag (the source checks `'inequality' in condition.__name__`)
and its residual function, taken total (its expression text evaluates
without error at the points considered). -/
structure PCond where
  isIneq : Bool
  f : List ℚ → ℚ

/-- Modelled from the spec: `mystic.penalty.quadratic_equality` is not
under `src/`.  Per §4.6 each wrap adds a weighted violation term scaled
by `k` on top of the accumulator; the `generate_penalty` doctest
(`penalty([1.,2.,0.]) = 25.0` from the equality residual `-0.5`) pins
the quadratic form and the default `k = 100`. -/
def quadratic_equality (condition : List ℚ → ℚ) (k : ℚ) (pf : List ℚ → ℚ) :
    List ℚ → ℚ :=
  fun x => pf x + k * condition x ^ 2

/-- Modelled from the spec: `mystic.penalty.quadratic_inequality`, the
inequality analogue, contributes nothing when the condition value is
nonpositive (the inequality is satisfied). -/
def quadratic_inequality (condition : List ℚ → ℚ) (k : ℚ) (pf : List ℚ → ℚ) :
    List ℚ → ℚ :=
  fun x => pf x + k * max 0 (condition x) ^ 2

/-- Translation of the composition loop of `generate_penalty` under the
default `ptype`: `quadratic_inequality` for conditions tagged as
inequalities, `quadratic_equality` otherwise, each wrapped around the
accumulator starting from `lambda x: 0.0`. -/
def generate_penalty (conditions : List PCond) : List ℚ → ℚ :=
  conditions.foldl
    (fun pf c =>
      if c.isIneq then quadratic_inequality c.f 100 pf
      else quadratic_equality c.f 100 pf)
    (fun _ => 0)

/-! ## The matrix-to-text bridge (`linear_symbolic`) -/

/-- Python `str()` of a float with integral value (`str(3.0) = '3.0'`,
`str(-9.0) = '-9.0'`); every coefficient in the claims is integral.
The fallback branch for non-integral rationals is never exercised
here. -/
def pyFloatStr (q : ℚ) : List Char :=
  if q.den = 1 then (toString q.num).data ++ ".0".data
  else (toString q.num).data ++ ['/'] ++ (toString q.den).data

/-- A coefficient argument of `linear_symbolic`: either a nested
row-per-constraint matrix, or a flat vector that the source's
`try: len(A[0]) except:` probe wraps into a one-row matrix. -/
inductive PyMat where
  | mat (rows : List (List ℚ))
  | vec (entries : List ℚ)

def matRows : PyMat → List (List ℚ)
  | .mat rows => rows
  | .vec v => [v]

/-- The `ndim` computed by the probe: the first row's length for a
nested matrix, the vector's length otherwise. -/
def matNdim : PyMat → Nat
  | .mat rows => (rows.headD []).length
  | .vec v => v.length

/-- One row's term string `str(M[i][j]) + '*x' + str(j) + ' + '` summed
over `j < ndim`; reading past the end of a ragged row raises, as
Python's indexing does. -/
def rowTerms (row : List ℚ) (ndim : Nat) : Except PyErr (List Char) :=
  (List.range ndim).foldlM
    (fun acc j =>
      match row[j]? with
      | some v => .ok (acc ++ pyFloatStr v ++ ['*', 'x'] ++ (Nat.repr j).data ++ " + ".data)
      | none => .error .indexError)
    []

/-- One section (equality or inequality) of `linear_symbolic`: check
`len(M) == len(b)`, then emit one line per row, right-stripping the
trailing `' + '` characters and appending the relation and the
solution entry.  (The source's flattening of a one-entry `b`/`h` is
the identity on the already-flat vectors modelled here.) -/
def linSection (rows : List (List ℚ)) (ndim : Nat) (op : List Char) (b : List ℚ) :
    Except PyErr (List Char) :=
  if rows.length ≠ b.length then .error .dimensionError
  else
    (List.range b.length).foldlM
      (fun acc i => do
        let terms ← rowTerms (rows.getD i []) ndim
        .ok (acc ++ rdropCh (fun c => c = ' ' || c = '+') terms ++ op
          ++ pyFloatStr (b.getD i 0) ++ ['\n']))
      []

/-- Translation of `linear_symbolic(A, b, G, h)`: the inequality text
(from `G`, `h`) followed by the equality text (from `A`, `b`); a
section whose pair is not fully supplied contributes nothing. -/
def linear_symbolic (A : Option PyMat) (b : Option (List ℚ))
    (G : Option PyMat) (h : Option (List ℚ)) : Except PyErr (List Char) := do
  let eqstring ← match A, b with
    | some A, some b => linSection (matRows A) (matNdim A) " = ".data b
    | _, _ => pure []
  let ineqstring ← match G, h with
    | some G, some h => linSection (matRows G) (matNdim G) " <= ".data h
    | _, _ => pure []
  .ok (ineqstring ++ eqstring)


/-! ## Specification-side definitions used to state the claims -/

/-- Sequential application of solvers in list order: the head runs
first on `x`, each later solver runs on the previous result.  This is
the "declaration order" semantics asserted by the spec for the default
composition. -/
def applyInOrder (solvers : List (List ℚ → Except PyErr (List ℚ))) (x : List ℚ) :
    Except PyErr (List ℚ) :=
  solvers.foldl (fun acc s => acc >>= s) (.ok x)

/-- Penalty-form per-line normalization written from the spec's words
(§3, §4.3): the relation is the first of `>`, `<`, `=` (in that trial
order) occurring in the processed line; the expression is
`lhs - (rhs)` for an `=` or `<` line and `-(lhs - (rhs))` for a `>`
line, routed to the equality or inequality output accordingly (a line
with none of the operators falls into the equality branch with the
whole line on both sides). -/
def penaltyLineSpec (ndim : Nat) (line : List Char) : List (List Char) × List (List Char) :=
  if pystrip line = [] then ([], [])
  else
    let c := aggNumpy (pystrip (fixLine ndim line))
    if '>' ∈ c then
      let lhs := pystrip (rstripEq ((pysplit '>' c).headD []))
      let rhs := pystrip (lstripEq ((pysplit '>' c).getLastD []))
      (["-(".data ++ (lhs ++ " - (".data ++ rhs ++ [')']) ++ [')']], [])
    else if '<' ∈ c then
      let lhs := pystrip (rstripEq ((pysplit '<' c).headD []))
      let rhs := pystrip (lstripEq ((pysplit '<' c).getLastD []))
      ([lhs ++ " - (".data ++ rhs ++ [')']], [])
    else
      let lhs := pystrip (rstripEq ((pysplit '=' c).headD []))
      let rhs := pystrip (lstripEq ((pysplit '=' c).getLastD []))
      ([], [lhs ++ " - (".data ++ rhs ++ [')']])

/-- None of the aggregate tags that trigger an `impose_*` rewrite of
`constraints_parser` occurs in the given left-hand side. -/
def aggTagsAbsent (l : List Char) : Bool :=
  !(hasSub l "spread(".data || hasSub l "mean(".data || hasSub l "variance(".data
    || hasSub l "sum(".data || hasSub l "product(".data)

/-- The quadratic penalty contribution of one condition at a point,
with the default multiplier. -/
def penaltyTerm (x : List ℚ) (c : PCond) : ℚ :=
  if c.isIneq then 100 * max 0 (c.f x) ^ 2 else 100 * c.f x ^ 2

/-- Feasibility of a point for a list of tagged conditions: every
inequality residual is nonpositive and every equality residual is
zero. -/
def Feasible (conds : List PCond) (x : List ℚ) : Prop :=
  ∀ c ∈ conds, if c.isIneq then c.f x ≤ 0 else c.f x = 0

instance (conds : List PCond) (x : List ℚ) : Decidable (Feasible conds x) := by
  unfold Feasible
  infer_instance

/-- The conditions of the `generate_penalty` doctest scenario
(`x2 = x0/2.` and `x0 >= 0.` with three variables), as residual
functions. -/
def scenarioConds : List PCond :=
  [⟨true, fun x => -(x.getD 0 0)⟩, ⟨false, fun x => x.getD 2 0 - x.getD 0 0 / 2⟩]

def isOkE {ε α : Type} : Except ε α → Bool
  | .ok _ => true
  | .error _ => false

/-- Apply every built condition function to a point, keeping the
build-time/call-time error separation observable. -/
def condCallResults (r : Except PyErr (List CondFn × List CondFn)) (x : List ℚ) :
    Except PyErr (List (Except PyErr ℚ) × List (Except PyErr ℚ)) :=
  r.map (fun p => (p.1.map (fun c => c.fn x), p.2.map (fun c => c.fn x)))

/-- Apply every built solver function to a point. -/
def solverCallResults (r : Except PyErr (List SolverFn)) (x : List ℚ) :
    Except PyErr (List (Except PyErr (List ℚ))) :=
  r.map (fun l => l.map (fun s => s.fn x))

/-! ## Tokenized texts for the round-trip renaming claim -/

/-- A constraint text shaped as an interleaving of variable-name
occurrences and separator characters. -/
inductive Tok where
  | name (k : Nat)
  | sep (c : Char)
  deriving DecidableEq, Repr

def Tok.isName : Tok → Bool
  | .name _ => true
  | .sep _ => false

/-- The source text described by a token list: the `k`-th variable name
at each name token, the separator character at each separator token. -/
def srcText (N : List (List Char)) (ts : List Tok) : List Char :=
  ts.flatMap (fun t => match t with
    | .name k => N.getD k []
    | .sep c => [c])

/-- The text after full replacement: marker plus index at each name
token. -/
def markedText (m : Char) (ts : List Tok) : List Char :=
  ts.flatMap (fun t => match t with
    | .name k => m :: (Nat.repr k).data
    | .sep c => [c])

/-- Mixed rendering mid-replacement: indices with the done flag set are
already replaced. -/
def mixedText (N : List (List Char)) (m : Char) (done : Nat → Bool) (ts : List Tok) :
    List Char :=
  ts.flatMap (fun t => match t with
    | .name k => if done k then m :: (Nat.repr k).data else N.getD k []
    | .sep c => [c])

/-- First-seen-order deduplication, as `get_variables` performs it. -/
def pydedup (l : List (List Char)) : List (List Char) :=
  l.foldl (fun a v => if v ∈ a then a else a ++ [v]) []

/-- Per-token well-formedness: separators are not digits, not the
marker, not newlines, and occur in no variable name; name indices are
in range. -/
def tokOK (N : List (List Char)) (m : Char) : Tok → Prop
  | .sep c => c.isDigit = false ∧ c ≠ m ∧ c ≠ '\n' ∧ ∀ n ∈ N, c ∉ n
  | .name k => k < N.length

instance (N : List (List Char)) (m : Char) : (t : Tok) → Decidable (tokOK N m t)
  | .sep c => inferInstanceAs
      (Decidable (c.isDigit = false ∧ c ≠ m ∧ c ≠ '\n' ∧ ∀ n ∈ N, c ∉ n))
  | .name k => inferInstanceAs (Decidable (k < N.length))

/-- Well-formedness of a round-trip renaming scenario: nonempty,
distinct names free of digits, marker and newline characters; well
formed tokens; no two adjacent name tokens; every name position
mentioned; a marker that is not a digit or newline. -/
def RoundtripWF (N : List (List Char)) (m : Char) (ts : List Tok) : Prop :=
  (∀ n ∈ N, n ≠ []) ∧ N.Nodup ∧
  (∀ n ∈ N, ∀ c ∈ n, c.isDigit = false ∧ c ≠ m ∧ c ≠ '\n') ∧
  (∀ t ∈ ts, tokOK N m t) ∧
  List.Chain' (fun a b => ¬(a.isName = true ∧ b.isName = true)) ts ∧
  (∀ k < N.length, Tok.name k ∈ ts) ∧
  m.isDigit = false ∧ m ≠ '\n'

instance (N : List (List Char)) (m : Char) (ts : List Tok) :
    Decidable (RoundtripWF N m ts) :=
  inferInstanceAs (Decidable ((∀ n ∈ N, n ≠ []) ∧ N.Nodup ∧
    (∀ n ∈ N, ∀ c ∈ n, c.isDigit = false ∧ c ≠ m ∧ c ≠ '\n') ∧
    (∀ t ∈ ts, tokOK N m t) ∧
    List.Chain' (fun (a b : Tok) => ¬(a.isName = true ∧ b.isName = true)) ts ∧
    (∀ k < N.length, Tok.name k ∈ ts) ∧
    m.isDigit = false ∧ m ≠ '\n'))

/-- The marker-indexed names a faithful round trip recovers: one
`marker + str(k)` per name token, first-seen order, deduplicated. -/
def roundtripExpected (m : Char) (ts : List Tok) : List (List Char) :=
  pydedup (ts.filterMap (fun t => match t with
    | .name k => some (m :: (Nat.repr k).data)
    | .sep _ => none))

/-! ## Helper lemmas -/

theorem pysplit_ne_nil (sep : Char) (s : List Char) : pysplit sep s ≠ [] := by
  induction s with
  | nil => simp [pysplit]
  | cons c t ih =>
    rw [pysplit]
    by_cases hc : c = sep
    · simp [hc]
    · simp only [hc, if_false]
      rcases h : pysplit sep t with _ | ⟨hd, tl⟩ <;> simp

theorem pysplit_of_not_mem {sep : Char} {s : List Char} (h : sep ∉ s) :
    pysplit sep s = [s] := by
  induction s with
  | nil => simp [pysplit]
  | cons c t ih =>
    rw [pysplit]
    have hc : ¬c = sep := fun he => h (he ▸ List.mem_cons_self c t)
    have ht : sep ∉ t := fun hm => h (List.mem_cons_of_mem c hm)
    simp only [hc, if_false, ih ht]

theorem pysplit_length_one_iff (sep : Char) (s : List Char) :
    (pysplit sep s).length = 1 ↔ sep ∉ s := by
  constructor
  · intro h
    intro hm
    induction s with
    | nil => simp at hm
    | cons c t ih =>
      rw [pysplit] at h
      by_cases hc : c = sep
      · rw [if_pos hc] at h
        simp only [List.length_cons] at h
        exact pysplit_ne_nil sep t (List.length_eq_zero.mp (by omega))
      · simp only [hc, if_false] at h
        rcases he : pysplit sep t with _ | ⟨hd, tl⟩
        · exact pysplit_ne_nil sep t he
        · rw [he, List.length_cons] at h
          rcases List.mem_cons.mp hm with h1 | h1
          · exact hc h1.symm
          · exact ih (by rw [he, List.length_cons]; omega) h1
  · intro h
    rw [pysplit_of_not_mem h]
    rfl

theorem pysplit_append_sep {sep : Char} {a : List Char} (b : List Char) (h : sep ∉ a) :
    pysplit sep (a ++ sep :: b) = a :: pysplit sep b := by
  induction a with
  | nil => simp [pysplit]
  | cons c t ih =>
    have hc : ¬c = sep := fun he => h (he ▸ List.mem_cons_self c t)
    have ht : sep ∉ t := fun hm => h (List.mem_cons_of_mem c hm)
    rw [List.cons_append, pysplit]
    simp only [hc, if_false, ih ht]

theorem foldl_append_pair {α β γ : Type} (f : α → List β × List γ) (l : List α)
    (a : List β × List γ) :
    l.foldl (fun acc x => (acc.1 ++ (f x).1, acc.2 ++ (f x).2)) a
      = (a.1 ++ l.flatMap (fun x => (f x).1), a.2 ++ l.flatMap (fun x => (f x).2)) := by
  induction l generalizing a with
  | nil => simp
  | cons x l ih =>
    rw [List.foldl_cons, ih]
    simp

theorem ex_bind_ok {α β : Type} (a : α) (f : α → Except PyErr β) :
    ((Except.ok a : Except PyErr α) >>= f) = f a := rfl

theorem ex_bind_assoc {α β γ : Type} (e : Except PyErr α) (f : α → Except PyErr β)
    (g : β → Except PyErr γ) : ((e >>= f) >>= g) = e >>= fun a => f a >>= g := by
  cases e <;> rfl

theorem ex_bind_pure {α : Type} (e : Except PyErr α) : (e >>= fun a => Except.ok a) = e := by
  cases e <;> rfl

theorem dropWhile_eq_self_of {p : Char → Bool} {s : List Char} (h : ∀ c ∈ s, p c = false) :
    s.dropWhile p = s := by
  cases s with
  | nil => rfl
  | cons c t =>
    rw [List.dropWhile_cons, h c (List.mem_cons_self c t)]
    simp

theorem rdropCh_eq_self {p : Char → Bool} {s : List Char} (h : ∀ c ∈ s, p c = false) :
    rdropCh p s = s := by
  unfold rdropCh
  rw [dropWhile_eq_self_of (fun c hc => h c (List.mem_reverse.mp hc)), List.reverse_reverse]

theorem relSplit_eq (c : List Char) :
    relSplit c = if '>' ∈ c then ('>', pysplit '>' c)
      else if '<' ∈ c then ('<', pysplit '<' c)
      else ('=', pysplit '=' c) := by
  unfold relSplit
  by_cases h1 : '>' ∈ c
  · have hne : (pysplit '>' c).length ≠ 1 := fun hl =>
      ((pysplit_length_one_iff _ _).mp hl) h1
    simp [h1, hne]
  · have l1 : (pysplit '>' c).length = 1 := (pysplit_length_one_iff _ _).mpr h1
    by_cases h2 : '<' ∈ c
    · have hne : (pysplit '<' c).length ≠ 1 := fun hl =>
        ((pysplit_length_one_iff _ _).mp hl) h2
      simp [h1, h2, l1, hne]
    · have l2 : (pysplit '<' c).length = 1 := (pysplit_length_one_iff _ _).mpr h2
      simp [h1, h2, l1, l2]

theorem penaltyLine_eq_spec (ndim : Nat) (line : List Char) :
    penaltyLine ndim line = penaltyLineSpec ndim line := by
  unfold penaltyLine penaltyLineSpec
  by_cases hb : pystrip line = []
  · simp [hb]
  · simp only [hb, if_false]
    rw [relSplit_eq]
    by_cases h1 : '>' ∈ aggNumpy (pystrip (fixLine ndim line))
    · simp [h1]
    · by_cases h2 : '<' ∈ aggNumpy (pystrip (fixLine ndim line))
      · simp [h1, h2]
      · simp [h1, h2]

theorem penaltyParser_eq_flatMap (text : List Char) (nvars : Option Nat) :
    penaltyParser text nvars
      = ((pysplit '\n' text).flatMap (fun l => (penaltyLine (parserNdim text nvars) l).1),
         (pysplit '\n' text).flatMap (fun l => (penaltyLine (parserNdim text nvars) l).2)) := by
  unfold penaltyParser
  rw [foldl_append_pair]
  simp

theorem foldl_inner_eq (l : List (List ℚ → Except PyErr (List ℚ)))
    (k : List ℚ → Except PyErr (List ℚ)) (x : List ℚ) :
    l.foldl (fun cf c => inner c cf) k x = applyInOrder l.reverse x >>= k := by
  induction l generalizing k with
  | nil =>
    show k x = ((Except.ok x : Except PyErr (List ℚ)) >>= k)
    rw [ex_bind_ok]
  | cons c l ih =>
    rw [List.foldl_cons, ih (inner c k), List.reverse_cons]
    have h2 : applyInOrder (l.reverse ++ [c]) x = applyInOrder l.reverse x >>= c := by
      unfold applyInOrder
      rw [List.foldl_append]
      rfl
    rw [h2, ex_bind_assoc]
    rfl

theorem generate_constraint_eq_rev (conds : List (List ℚ → Except PyErr (List ℚ)))
    (x : List ℚ) : generate_constraint conds x = applyInOrder conds.reverse x := by
  unfold generate_constraint
  rw [foldl_inner_eq]
  exact ex_bind_pure _

theorem ex_bind_error {α β : Type} (e : PyErr) (f : α → Except PyErr β) :
    ((Except.error e : Except PyErr α) >>= f) = .error e := rfl

/-! ## Claim theorems -/

/-- C1 (counterexample): for the two solvers compiled from
`x2 = x0/2.` and `x0 >= 0.`, the composed constraint maps `[-1, 2, -3]`
to `[0, 2, 0]` (as the source's doctest records), while applying the
solvers in declaration order (constraint `i` after constraints
`0..i-1`) yields `[0, 2, -1/2]`; the two differ, so under the default
kinds the composition does not run later solvers after earlier ones. -/
theorem c1_counterexample :
    (generate_solvers "x2 = x0/2.\nx0 >= 0.".data (some 3) >>= fun sv =>
      generate_constraint (sv.map SolverFn.fn) [-1, 2, -3]) = .ok [0, 2, 0]
    ∧ (generate_solvers "x2 = x0/2.\nx0 >= 0.".data (some 3) >>= fun sv =>
      applyInOrder (sv.map SolverFn.fn) [-1, 2, -3]) = .ok [0, 2, -(1/2)]
    ∧ (Except.ok [0, 2, 0] : Except PyErr (List ℚ)) ≠ .ok [0, 2, -(1/2)] := by
  refine ⟨?_, ?_, ?_⟩ <;> with_unfolding_all decide

/-- C1 (amended): under the default kinds, the constraint function
composed by `generate_constraint` applies the solver functions in
reverse declaration order — solver `i` runs before solvers `0..i-1`,
i.e. the composition equals the in-order application of the reversed
solver list. -/
theorem c1_amended : ∀ (solvers : List (List ℚ → Except PyErr (List ℚ))) (x : List ℚ),
    generate_constraint solvers x = applyInOrder solvers.reverse x :=
  generate_constraint_eq_rev

/-- C3: compiling `x2 = x0/2.` and `x0 >= 0.` with `nvars = 3` through
the solver-form path (`constraints_parser`, `generate_solvers`,
`generate_constraint` with default kinds) and applying the composed
constraint to `[-1, 2, -3]` yields `[0, 2, 0]`. -/
theorem c3_solver_form_scenario :
    constraintsParser "x2 = x0/2.\nx0 >= 0.".data (some 3)
      = .ok ["x[2] = x[0]/2.".data, "x[0] = max(0., x[0])".data]
    ∧ (generate_solvers "x2 = x0/2.\nx0 >= 0.".data (some 3) >>= fun sv =>
        generate_constraint (sv.map SolverFn.fn) [-1, 2, -3]) = .ok [0, 2, 0] := by
  constructor
  · decide
  · with_unfolding_all decide

/-- C4: `penalty_parser` on the scenario text returns the inequality
expression `-(x[0] - (0.))` and the equality expression
`x[2] - (x[0]/2.)`; and in general it builds `lhs - (rhs)` for `=` and
`<` lines and `-(lhs - (rhs))` for `>` lines, appending each to the
equality or inequality output accordingly (per-line form stated by
`penaltyLineSpec`, which follows the spec's wording). -/
theorem c4_penalty_expressions :
    penaltyParser "x2 = x0/2.\nx0 >= 0.".data (some 3)
      = (["-(x[0] - (0.))".data], ["x[2] - (x[0]/2.)".data])
    ∧ ∀ (text : List Char) (nvars : Option Nat),
        penaltyParser text nvars
          = ((pysplit '\n' text).flatMap
               (fun l => (penaltyLineSpec (parserNdim text nvars) l).1),
             (pysplit '\n' text).flatMap
               (fun l => (penaltyLineSpec (parserNdim text nvars) l).2)) := by
  constructor
  · decide
  · intro text nvars
    rw [penaltyParser_eq_flatMap]
    simp only [penaltyLine_eq_spec]

/-- C6: the relation of a line is determined by trying `>` first, then
`<`, then `=` (the split cascade equals the contains cascade); a line
with both `<` and `=` (a literal `<=`) is treated as `<` with the
leading `=` stripped from the right-hand side, and a literal `=>` is
treated as `>` with the trailing `=` stripped from the left-hand side,
in both parsers. -/
theorem c6_operator_priority :
    (∀ c : List Char, (relSplit c).1
        = if '>' ∈ c then '>' else if '<' ∈ c then '<' else '=')
    ∧ penaltyParser "x0 <= 5.0".data (some 1) = (["x[0] - (5.0)".data], [])
    ∧ constraintsParser "x0 <= 5.0".data (some 1) = .ok ["x[0] = min(5.0, x[0])".data]
    ∧ penaltyParser "x0 => 5.0".data (some 1) = (["-(x[0] - (5.0))".data], [])
    ∧ constraintsParser "x0 => 5.0".data (some 1)
        = .ok ["x[0] = max(5.0, x[0])".data] := by
  refine ⟨?_, ?_, ?_, ?_, ?_⟩
  · intro c
    rw [relSplit_eq]
    by_cases h1 : '>' ∈ c <;> by_cases h2 : '<' ∈ c <;> simp [h1, h2]
  all_goals decide

/-- C9: `linear_symbolic` on the scenario matrices produces the
inequality line followed by the two equality lines, with float-rendered
coefficients. -/
theorem c9_linear_symbolic_scenario :
    linear_symbolic (some (.mat [[3, 4, 5], [1, 6, -9]])) (some [0, 0])
      (some (.vec [1, 0, 0])) (some [5])
    = .ok ("1.0*x0 + 0.0*x1 + 0.0*x2 <= 5.0\n3.0*x0 + 4.0*x1 + 5.0*x2 = 0.0\n"
        ++ "1.0*x0 + 6.0*x1 + -9.0*x2 = 0.0\n").data := by
  with_unfolding_all decide

/-- C2 (counterexample): the operator-free line `x0 + 5` is not
excluded: `penalty_parser` places `x[0] + 5 - (x[0] + 5)` in the
equality tuple and `constraints_parser` emits the solver expression
`x[0] + 5 = x[0] + 5`, while the other line of the batch still
compiles. -/
theorem c2_counterexample :
    penaltyParser "x0 + 5\nx0 > 0.".data (some 1)
      = (["-(x[0] - (0.))".data], ["x[0] + 5 - (x[0] + 5)".data])
    ∧ "x[0] + 5 - (x[0] + 5)".data ∈ (penaltyParser "x0 + 5\nx0 > 0.".data (some 1)).2
    ∧ constraintsParser "x0 + 5\nx0 > 0.".data (some 1)
      = .ok ["x[0] + 5 = x[0] + 5".data, "x[0] = max(0., x[0])".data] := by
  refine ⟨?_, ?_, ?_⟩ <;> decide

theorem rstripEq_eq_self {c : List Char} (h : '=' ∉ c) : rstripEq c = c :=
  rdropCh_eq_self (fun ch hch => by
    simp only [decide_eq_false_iff_not]
    exact fun he => h (he ▸ hch))

theorem lstripEq_eq_self {c : List Char} (h : '=' ∉ c) : lstripEq c = c :=
  dropWhile_eq_self_of (fun ch hch => by
    simp only [decide_eq_false_iff_not]
    exact fun he => h (he ▸ hch))

theorem penaltyLine_invalid (ndim : Nat) (line c : List Char)
    (hc : aggNumpy (pystrip (fixLine ndim line)) = c)
    (hnb : pystrip line ≠ []) (hstr : pystrip c = c)
    (hgt : '>' ∉ c) (hlt : '<' ∉ c) (heq : '=' ∉ c) :
    penaltyLine ndim line = ([], [c ++ " - (".data ++ c ++ [')']]) := by
  rw [penaltyLine_eq_spec]
  unfold penaltyLineSpec
  rw [if_neg hnb, hc]
  simp only [hgt, hlt, if_false]
  rw [pysplit_of_not_mem heq]
  have hgl : ([c] : List (List Char)).getLastD [] = c := rfl
  simp only [List.headD_cons, hgl]
  rw [rstripEq_eq_self heq, lstripEq_eq_self heq, hstr]

theorem imposeRewrite_id {tag imp : List Char} {lr : List Char × List Char}
    (h : hasSub lr.1 (tag ++ ['(']) = false) : imposeRewrite tag imp lr = lr := by
  unfold imposeRewrite
  rw [h]
  simp

theorem constraintsLine_invalid (ndim : Nat) (line c : List Char)
    (hc : aggMystic (pystrip (fixLine ndim line)) = c)
    (hnb : pystrip line ≠ []) (hstr : pystrip c = c)
    (hgt : '>' ∉ c) (hlt : '<' ∉ c) (heq : '=' ∉ c)
    (hagg : aggTagsAbsent (c ++ [' ']) = true) :
    constraintsLine ndim line = .ok [c ++ " = ".data ++ c] := by
  have hdata : (" = ").data = [' ', '=', ' '] := rfl
  unfold constraintsLine
  rw [if_neg hnb, hc]
  have hgl : ([c] : List (List Char)).getLastD [] = c := rfl
  have hne1 : ¬(('=' : Char) = '>') := by decide
  have hne2 : ¬(('=' : Char) = '<') := by decide
  simp only [relSplit_eq, hgt, hlt, if_false, pysplit_of_not_mem heq, List.headD_cons,
    hgl, rstripEq_eq_self heq, lstripEq_eq_self heq, hstr, hne1, hne2]
  have hnea : '=' ∉ c ++ [' '] := by
    intro hm
    rcases List.mem_append.mp hm with h1 | h1
    · exact heq h1
    · simp at h1
  have hneb : '=' ∉ ' ' :: c := by
    intro hm
    rcases List.mem_cons.mp hm with h1 | h1
    · exact absurd h1 (by decide)
    · exact heq h1
  have hre : c ++ (" = ").data ++ c = (c ++ [' ']) ++ '=' :: (' ' :: c) := by
    rw [hdata]
    simp
  rw [hre, pysplit_append_sep _ hnea, pysplit_of_not_mem hneb]
  unfold aggTagsAbsent at hagg
  simp only [Bool.not_eq_true', Bool.or_eq_false_iff] at hagg
  obtain ⟨⟨⟨⟨hs1, hs2⟩, hs3⟩, hs4⟩, hs5⟩ := hagg
  have hs1' : hasSub (c ++ [' ']) ("spread".data ++ ['(']) = false := hs1
  have hs2' : hasSub (c ++ [' ']) ("mean".data ++ ['(']) = false := hs2
  have hs3' : hasSub (c ++ [' ']) ("variance".data ++ ['(']) = false := hs3
  have hs4' : hasSub (c ++ [' ']) ("sum".data ++ ['(']) = false := hs4
  have hs5' : hasSub (c ++ [' ']) ("product".data ++ ['(']) = false := hs5
  simp only [imposeRewrite, hs1', hs2', hs3', hs4', hs5', Bool.false_eq_true, if_false]
  have hj : pyjoin ['='] [c ++ [' '], ' ' :: c] = c ++ (" = ").data ++ c := by
    show (c ++ [' ']) ++ ['='] ++ (' ' :: c) = _
    rw [hdata]
    simp
  rw [hj, hre]

/-- C2 (amended): a line containing none of `=`, `<`, `>` is reported
invalid but not excluded: each line contributes independently to the
batch (the parser output is the per-line concatenation), and the
operator-free line falls through as an equality whose two sides are the
whole processed line, yielding `L - (L)` in the equality tuple of
`penalty_parser` and the solver expression `L = L` in
`constraints_parser`; the other lines still compile. -/
theorem c2_amended :
    (∀ (text : List Char) (nvars : Option Nat),
       penaltyParser text nvars
         = ((pysplit '\n' text).flatMap
              (fun l => (penaltyLine (parserNdim text nvars) l).1),
            (pysplit '\n' text).flatMap
              (fun l => (penaltyLine (parserNdim text nvars) l).2)))
    ∧ (∀ (ndim : Nat) (line c : List Char),
        aggNumpy (pystrip (fixLine ndim line)) = c → pystrip line ≠ [] →
        pystrip c = c → '>' ∉ c → '<' ∉ c → '=' ∉ c →
        penaltyLine ndim line = ([], [c ++ " - (".data ++ c ++ [')']]))
    ∧ (∀ (ndim : Nat) (line c : List Char),
        aggMystic (pystrip (fixLine ndim line)) = c → pystrip line ≠ [] →
        pystrip c = c → '>' ∉ c → '<' ∉ c → '=' ∉ c →
        aggTagsAbsent (c ++ [' ']) = true →
        constraintsLine ndim line = .ok [c ++ " = ".data ++ c]) :=
  ⟨penaltyParser_eq_flatMap,
   fun ndim line c hc hnb hstr hgt hlt heq =>
     penaltyLine_invalid ndim line c hc hnb hstr hgt hlt heq,
   fun ndim line c hc hnb hstr hgt hlt heq hagg =>
     constraintsLine_invalid ndim line c hc hnb hstr hgt hlt heq hagg⟩

theorem c2_amended_witness :
    penaltyLine 1 "x0 + 5".data = ([], ["x[0] + 5 - (x[0] + 5)".data])
    ∧ constraintsLine 1 "x0 + 5".data = .ok ["x[0] + 5 = x[0] + 5".data] :=
  ⟨(c2_amended.2.1 1 "x0 + 5".data "x[0] + 5".data (by decide) (by decide) (by decide)
      (by decide) (by decide) (by decide)).trans (by decide),
   (c2_amended.2.2 1 "x0 + 5".data "x[0] + 5".data (by decide) (by decide) (by decide)
      (by decide) (by decide) (by decide) (by decide)).trans (by decide)⟩

theorem execAssign_ok_length {stmt : List Char} {x y : List ℚ}
    (h : execAssign stmt x = .ok y) : y.length = x.length := by
  unfold execAssign at h
  rcases hsp : pysplit '=' stmt with _ | ⟨tgt, _ | ⟨rhs, _ | ⟨z, zs⟩⟩⟩ <;> rw [hsp] at h
  · exact absurd h (by simp)
  · exact absurd h (by simp)
  · have h2 : (do
        let i ← parseTarget tgt
        let v ← pyEval rhs x
        if i < x.length then Except.ok (x.set i v)
        else Except.error PyErr.indexError) = Except.ok y := h
    clear h
    rcases hpt : parseTarget tgt with e | i <;> rw [hpt] at h2
    · rw [ex_bind_error] at h2
      exact absurd h2 (by simp)
    · rw [ex_bind_ok] at h2
      rcases hev : pyEval rhs x with e | v <;> rw [hev] at h2
      · rw [ex_bind_error] at h2
        exact absurd h2 (by simp)
      · rw [ex_bind_ok] at h2
        by_cases hi : i < x.length
        · rw [if_pos hi] at h2
          cases h2
          exact List.length_set x i v
        · rw [if_neg hi] at h2
          exact absurd h2 (by simp)
  · exact absurd h (by simp)

/-- C10 (counterexample): the solver built from `x[0] = max(0., x[0])`
applied to `[-1, 2, 3]` leaves the caller's list holding `[0, 2, 3]`
after the call — the point object supplied by the caller is mutated in
place, not a private copy. -/
theorem c10_counterexample :
    solverCall "x[0] = max(0., x[0])".data [-1, 2, 3] = .ok ⟨[0, 2, 3], [0, 2, 3]⟩
    ∧ ([0, 2, 3] : List ℚ) ≠ [-1, 2, 3] := by
  constructor <;> with_unfolding_all decide

/-- C10 (amended): every solver call that returns does return a mutated
point of the same length as its input, but the returned point is the
caller's own list object after the in-place item assignment — the
caller's point reflects the mutation rather than being left
unmodified. -/
theorem c10_amended : ∀ (stmt : List Char) (x : List ℚ) (r : SolverCall),
    solverCall stmt x = .ok r → r.caller = r.ret ∧ r.ret.length = x.length := by
  intro stmt x r h
  unfold solverCall at h
  rcases he : execAssign stmt x with e | y <;> rw [he] at h
  · exact absurd h (by simp [Except.map])
  · simp only [Except.map] at h
    cases h
    exact ⟨rfl, execAssign_ok_length he⟩

theorem c10_amended_witness :
    (SolverCall.mk [0, 2, 3] [0, 2, 3]).caller = (SolverCall.mk [0, 2, 3] [0, 2, 3]).ret
    ∧ (SolverCall.mk [0, 2, 3] [0, 2, 3]).ret.length = ([-1, 2, 3] : List ℚ).length :=
  c10_amended "x[0] = max(0., x[0])".data [-1, 2, 3] ⟨[0, 2, 3], [0, 2, 3]⟩
    (by with_unfolding_all decide)

theorem generate_penalty_eq_sum (conds : List PCond) (g : List ℚ → ℚ) (x : List ℚ) :
    (conds.foldl
      (fun pf c =>
        if c.isIneq then quadratic_inequality c.f 100 pf
        else quadratic_equality c.f 100 pf)
      g) x = g x + (conds.map (penaltyTerm x)).sum := by
  induction conds generalizing g with
  | nil => simp
  | cons c l ih =>
    rw [List.foldl_cons, ih, List.map_cons, List.sum_cons]
    rcases hi : c.isIneq with _ | _
    · simp only [hi, if_false, quadratic_equality, penaltyTerm, Bool.false_eq_true]
      ring
    · simp only [hi, if_true, quadratic_inequality, penaltyTerm]
      ring

theorem penaltyTerm_nonneg (x : List ℚ) (c : PCond) : 0 ≤ penaltyTerm x c := by
  unfold penaltyTerm
  rcases c.isIneq with _ | _ <;> simp <;> positivity

/-- C7: under default kinds the penalty composed by `generate_penalty`
is exactly `0` at every feasible point (all inequality residuals
nonpositive, all equality residuals zero) and strictly positive at
every infeasible point. -/
theorem c7_penalty_zero_iff_feasible : ∀ (conds : List PCond) (x : List ℚ),
    (Feasible conds x → generate_penalty conds x = 0)
    ∧ (¬Feasible conds x → 0 < generate_penalty conds x) := by
  intro conds x
  constructor
  · intro hf
    unfold generate_penalty
    rw [generate_penalty_eq_sum]
    have hz : ∀ q ∈ conds.map (penaltyTerm x), q = 0 := by
      intro q hq
      rcases List.mem_map.mp hq with ⟨c, hc, rfl⟩
      have := hf c hc
      unfold penaltyTerm
      rcases hi : c.isIneq with _ | _
      · rw [hi] at this
        simp only [Bool.false_eq_true, if_false] at this ⊢
        rw [this]
        ring
      · rw [hi] at this
        simp only [if_true] at this ⊢
        rw [max_eq_left this]
        ring
    rw [List.sum_eq_zero hz]
    ring
  · intro hnf
    unfold generate_penalty
    rw [generate_penalty_eq_sum]
    simp only [zero_add]
    have : ∃ c ∈ conds, ¬(if c.isIneq then c.f x ≤ 0 else c.f x = 0) := by
      by_contra hall
      push_neg at hall
      exact hnf hall
    rcases this with ⟨c, hc, hviol⟩
    rcases List.append_of_mem hc with ⟨s, t, rfl⟩
    rw [List.map_append, List.sum_append, List.map_cons, List.sum_cons]
    have h1 : 0 ≤ ((s.map (penaltyTerm x))).sum :=
      List.sum_nonneg (by
        intro q hq
        rcases List.mem_map.mp hq with ⟨d, _, rfl⟩
        exact penaltyTerm_nonneg x d)
    have h2 : 0 ≤ ((t.map (penaltyTerm x))).sum :=
      List.sum_nonneg (by
        intro q hq
        rcases List.mem_map.mp hq with ⟨d, _, rfl⟩
        exact penaltyTerm_nonneg x d)
    have h3 : 0 < penaltyTerm x c := by
      unfold penaltyTerm
      rcases hi : c.isIneq with _ | _ <;> rw [hi] at hviol
      · simp only [Bool.false_eq_true, if_false] at hviol ⊢
        have : c.f x ≠ 0 := hviol
        positivity
      · simp only [if_true] at hviol ⊢
        push_neg at hviol
        have hmax : max 0 (c.f x) = c.f x := max_eq_right hviol.le
        rw [hmax]
        positivity
    linarith

theorem c7_witness :
    Feasible scenarioConds [1, 2, 1/2]
    ∧ generate_penalty scenarioConds [1, 2, 1/2] = 0
    ∧ ¬Feasible scenarioConds [1, 2, 0]
    ∧ 0 < generate_penalty scenarioConds [1, 2, 0] := by
  have h1 : Feasible scenarioConds [1, 2, 1/2] := by
    with_unfolding_all decide
  have h2 : ¬Feasible scenarioConds [1, 2, 0] := by
    with_unfolding_all decide
  exact ⟨h1, (c7_penalty_zero_iff_feasible scenarioConds [1, 2, 1/2]).1 h1, h2,
    (c7_penalty_zero_iff_feasible scenarioConds [1, 2, 0]).2 h2⟩

theorem mapM_ok {α β : Type} (f : α → Except PyErr β) (l : List α)
    (h : ∀ e ∈ l, isOkE (f e) = true) : ∃ r, l.mapM f = .ok r := by
  induction l with
  | nil => exact ⟨[], rfl⟩
  | cons a t ih =>
    rcases hfa : f a with e | v
    · have := h a (List.mem_cons_self a t)
      rw [hfa] at this
      exact absurd this (by simp [isOkE])
    · rcases ih (fun e he => h e (List.mem_cons_of_mem _ he)) with ⟨r, hr⟩
      refine ⟨v :: r, ?_⟩
      rw [List.mapM_cons, hfa, hr]
      rfl

theorem isOkE_buildCondFn {b : Bool} {e : List Char} (h : exprLiteralSafe e = true) :
    isOkE (buildCondFn b e) = true := by
  unfold buildCondFn
  rw [h]
  rfl

theorem isOkE_buildSolverFn {e : List Char} (h : exprLiteralSafe e = true) :
    isOkE (buildSolverFn e) = true := by
  unfold buildSolverFn
  rw [h]
  rfl

/-- C8 (counterexample): building conditions from `foo(x0) = 0.` (an
expression with the unbound name `foo`) succeeds — no error is raised
at build time — and the `NameError` surfaces only when the built
condition is invoked; the same holds for a solver built from
`x0 = foo(x1)`. -/
theorem c8_counterexample :
    isOkE (generate_conditions "foo(x0) = 0.".data (some 1)) = true
    ∧ condCallResults (generate_conditions "foo(x0) = 0.".data (some 1)) [1]
        = .ok ([], [.error .nameError])
    ∧ isOkE (generate_solvers "x0 = foo(x1)".data (some 2)) = true
    ∧ solverCallResults (generate_solvers "x0 = foo(x1)".data (some 2)) [1, 2]
        = .ok [.error .nameError] := by
  refine ⟨?_, ?_, ?_, ?_⟩ <;> with_unfolding_all decide

/-- C8 (amended): building condition and solver functions never
inspects the expression beyond the characters that would break the
generated wrapper's quoted literal — every batch of literal-safe
expressions builds successfully, regardless of unbound names or
expression-level syntax errors — and such errors surface only when the
built callable is first invoked (concrete `NameError` instances
shown). -/
theorem c8_amended :
    (∀ (text : List Char) (nvars : Option Nat),
       (((penaltyParser text nvars).1 ++ (penaltyParser text nvars).2).all
          exprLiteralSafe) = true →
       isOkE (generate_conditions text nvars) = true)
    ∧ (∀ (text : List Char) (nvars : Option Nat) (exprs : List (List Char)),
       constraintsParser text nvars = .ok exprs → exprs.all exprLiteralSafe = true →
       isOkE (generate_solvers text nvars) = true)
    ∧ condCallResults (generate_conditions "foo(x0) = 0.".data (some 1)) [0]
        = .ok ([], [.error .nameError])
    ∧ solverCallResults (generate_solvers "x0 = foo(x1)".data (some 2)) [3, 4]
        = .ok [.error .nameError] := by
  refine ⟨?_, ?_, ?_, ?_⟩
  · intro text nvars hall
    rw [List.all_eq_true] at hall
    unfold generate_conditions
    rcases mapM_ok (buildCondFn false) (penaltyParser text nvars).2
        (fun e he => isOkE_buildCondFn
          (hall e (List.mem_append.mpr (Or.inr he)))) with ⟨r2, h2⟩
    rcases mapM_ok (buildCondFn true) (penaltyParser text nvars).1
        (fun e he => isOkE_buildCondFn
          (hall e (List.mem_append.mpr (Or.inl he)))) with ⟨r1, h1⟩
    show isOkE (mapM (buildCondFn false) (penaltyParser text nvars).2 >>= fun eqs =>
      mapM (buildCondFn true) (penaltyParser text nvars).1 >>= fun ineqs =>
      Except.ok (ineqs, eqs)) = true
    rw [h2, ex_bind_ok, h1, ex_bind_ok]
    rfl
  · intro text nvars exprs hcp hall
    rw [List.all_eq_true] at hall
    unfold generate_solvers
    rw [hcp, ex_bind_ok]
    rcases mapM_ok buildSolverFn exprs
        (fun e he => isOkE_buildSolverFn (hall e he)) with ⟨r, hr⟩
    rw [hr]
    rfl
  · with_unfolding_all decide
  · with_unfolding_all decide

theorem c8_amended_witness :
    ((((penaltyParser "x0 = 1.".data (some 1)).1
        ++ (penaltyParser "x0 = 1.".data (some 1)).2).all exprLiteralSafe) = true)
    ∧ isOkE (generate_conditions "x0 = 1.".data (some 1)) = true
    ∧ constraintsParser "x0 = 1.".data (some 1) = .ok ["x[0] = 1.".data]
    ∧ (["x[0] = 1.".data].all exprLiteralSafe) = true
    ∧ isOkE (generate_solvers "x0 = 1.".data (some 1)) = true :=
  ⟨by decide, c8_amended.1 "x0 = 1.".data (some 1) (by decide), by decide, by decide,
   c8_amended.2.1 "x0 = 1.".data (some 1) ["x[0] = 1.".data] (by decide) (by decide)⟩

/-- C5 (counterexample): with variables `['y', 'x']` and the marker
base `yx`, replacing in `y + x` gives `yyx10 + yx1` (the second
substitution corrupts the first marker token), and extraction recovers
`yx10` and `yx1`: the name for position `0` (`yx0`) is not recovered,
so the recovered indices do not correspond to the positions of the
names. -/
theorem c5_counterexample :
    get_variables (replace_variables "y + x".data ["y".data, "x".data] "yx".data) "yx".data
      = ["yx10".data, "yx1".data]
    ∧ "yx0".data ∉ get_variables (replace_variables "y + x".data ["y".data, "x".data]
        "yx".data) "yx".data := by
  constructor
  · decide
  · decide

/-! ## Lemmas on `pyreplace` for the round-trip proof -/

theorem pyreplaceGo_fuel (old new : List Char) :
    ∀ (f1 : Nat) {f2 : Nat} (s : List Char), s.length ≤ f1 → s.length ≤ f2 →
    pyreplaceGo old new f1 s = pyreplaceGo old new f2 s := by
  intro f1
  induction f1 with
  | zero =>
    intro f2 s h1 _
    have hs : s = [] := List.length_eq_zero.mp (Nat.le_zero.mp h1)
    subst hs
    cases f2 <;> rfl
  | succ f ih =>
    intro f2 s h1 h2
    cases s with
    | nil => cases f2 <;> rfl
    | cons c t =>
      cases f2 with
      | zero => simp at h2
      | succ g =>
        show pyreplaceGo old new (f + 1) (c :: t) = pyreplaceGo old new (g + 1) (c :: t)
        simp only [pyreplaceGo]
        by_cases hcond : old ≠ [] ∧ old.isPrefixOf (c :: t)
        · rw [if_pos hcond, if_pos hcond]
          have hol : 1 ≤ old.length := List.length_pos.mpr hcond.1
          congr 1
          apply ih <;> simp only [List.length_drop, List.length_cons] at * <;> omega
        · rw [if_neg hcond, if_neg hcond]
          congr 1
          apply ih <;> simp only [List.length_cons] at h1 h2 <;> omega

theorem pyreplace_cons_skipHead {old : List Char} (c : Char) (t new : List Char)
    (hnp : ¬ old.isPrefixOf (c :: t) = true) :
    pyreplace (c :: t) old new = c :: pyreplace t old new := by
  show pyreplaceGo old new (t.length + 1) (c :: t) = c :: pyreplaceGo old new t.length t
  simp only [pyreplaceGo]
  rw [if_neg (fun hc => hnp hc.2)]

theorem pyreplace_oldHead {old : List Char} (hold : old ≠ []) (t new : List Char) :
    pyreplace (old ++ t) old new = new ++ pyreplace t old new := by
  rcases ho : old with _ | ⟨oc, os⟩
  · exact absurd ho hold
  show pyreplaceGo (oc :: os) new ((oc :: os) ++ t).length ((oc :: os) ++ t) = _
  rw [List.cons_append]
  show pyreplaceGo (oc :: os) new ((os ++ t).length + 1) (oc :: (os ++ t)) = _
  simp only [pyreplaceGo]
  rw [if_pos ⟨List.cons_ne_nil oc os, by
    rw [List.isPrefixOf_iff_prefix, ← List.cons_append]
    exact List.prefix_append _ _⟩]
  congr 1
  show pyreplaceGo (oc :: os) new (os ++ t).length
      (List.drop (os.length + 1) (oc :: (os ++ t))) = pyreplaceGo (oc :: os) new t.length t
  rw [List.drop_succ_cons, List.drop_left]
  apply pyreplaceGo_fuel
  · simp
  · exact le_rfl

theorem pyreplace_append_no_occ (u v old new : List Char)
    (h : ∀ j, j < u.length → ¬ (old.isPrefixOf (u.drop j ++ v) = true)) :
    pyreplace (u ++ v) old new = u ++ pyreplace v old new := by
  induction u with
  | nil => simp
  | cons c u' ih =>
    rw [List.cons_append, pyreplace_cons_skipHead _ _ _ (by
      have := h 0 (by simp)
      simpa using this)]
    rw [ih (fun j hj => by
      have := h (j + 1) (by simp only [List.length_cons]; omega)
      simpa using this)]
    simp

theorem prefix_append_cases {p w v : List Char} (h : p <+: w ++ v) :
    (p.length ≤ w.length ∧ p <+: w)
      ∨ (w.length < p.length ∧ w <+: p ∧ p.drop w.length <+: v) := by
  by_cases hl : p.length ≤ w.length
  · exact Or.inl ⟨hl, List.prefix_of_prefix_length_le h (List.prefix_append w v) hl⟩
  · have hw : w <+: p :=
      List.prefix_of_prefix_length_le (List.prefix_append w v) h (by omega)
    refine Or.inr ⟨by omega, hw, ?_⟩
    rcases hw with ⟨q, hq⟩
    rcases h with ⟨r, hr⟩
    rw [← hq]
    rw [← hq, List.append_assoc] at hr
    have hv : q ++ r = v := by
      have := List.append_cancel_left hr
      exact this
    rw [List.drop_left]
    exact ⟨r, hv⟩

theorem pyreplace_self (old : List Char) (hold : old ≠ []) (s : List Char) :
    pyreplace s old old = s := by
  have H : ∀ n (s : List Char), s.length ≤ n → pyreplace s old old = s := by
    intro n
    induction n with
    | zero =>
      intro s h
      have hs : s = [] := List.length_eq_zero.mp (Nat.le_zero.mp h)
      subst hs
      rfl
    | succ n ih =>
      intro s hs
      by_cases hpre : old.isPrefixOf s = true
      · rcases List.isPrefixOf_iff_prefix.mp hpre with ⟨t, ht⟩
        rw [← ht, pyreplace_oldHead hold]
        have hol : 1 ≤ old.length := List.length_pos.mpr hold
        rw [ih t (by
          rw [← ht, List.length_append] at hs
          omega)]
      · cases s with
        | nil => rfl
        | cons c t =>
          rw [pyreplace_cons_skipHead _ _ _ hpre,
            ih t (by simp only [List.length_cons] at hs; omega)]
  exact H s.length s le_rfl

/-! ## Digit facts about `Nat.repr` -/

theorem toDigitsCore_ne_nil : ∀ (f n : Nat) (ds : List Char),
    Nat.toDigitsCore 10 f n ds = [] → f = 0 ∧ ds = [] := by
  intro f
  induction f with
  | zero => intro n ds h; exact ⟨rfl, h⟩
  | succ f ih =>
    intro n ds h
    rw [Nat.toDigitsCore] at h
    by_cases hz : n / 10 = 0
    · rw [if_pos hz] at h
      cases h
    · rw [if_neg hz] at h
      rcases ih _ _ h with ⟨_, h2⟩
      cases h2

theorem digitChar_isDigit {n : Nat} (h : n < 10) : (Nat.digitChar n).isDigit = true := by
  interval_cases n <;> decide

theorem toDigitsCore_digits : ∀ (f n : Nat) (ds : List Char),
    (∀ c ∈ ds, c.isDigit = true) → ∀ c ∈ Nat.toDigitsCore 10 f n ds, c.isDigit = true := by
  intro f
  induction f with
  | zero => intro n ds hds; exact hds
  | succ f ih =>
    intro n ds hds c hc
    rw [Nat.toDigitsCore] at hc
    have hd : (Nat.digitChar (n % 10)).isDigit = true :=
      digitChar_isDigit (Nat.mod_lt n (by norm_num))
    by_cases hz : n / 10 = 0
    · rw [if_pos hz] at hc
      rcases List.mem_cons.mp hc with h1 | h1
      · rw [h1]; exact hd
      · exact hds c h1
    · rw [if_neg hz] at hc
      refine ih _ _ ?_ c hc
      intro d hdm
      rcases List.mem_cons.mp hdm with h1 | h1
      · rw [h1]; exact hd
      · exact hds d h1

theorem repr_data_ne_nil (k : Nat) : (Nat.repr k).data ≠ [] := by
  show (Nat.toDigits 10 k).asString.data ≠ []
  show Nat.toDigits 10 k ≠ []
  unfold Nat.toDigits
  intro h
  rcases toDigitsCore_ne_nil _ _ _ h with ⟨h1, _⟩
  omega

theorem repr_data_digits (k : Nat) : ∀ c ∈ (Nat.repr k).data, c.isDigit = true := by
  show ∀ c ∈ Nat.toDigits 10 k, c.isDigit = true
  unfold Nat.toDigits
  exact toDigitsCore_digits _ _ _ (by intro c hc; cases hc)

theorem no_occ_of_head_notin {oc : Char} {os : List Char} (u v : List Char)
    (hnotin : oc ∉ u) :
    ∀ j, j < u.length → ¬ ((oc :: os).isPrefixOf (u.drop j ++ v) = true) := by
  intro j hj hp
  rw [List.isPrefixOf_iff_prefix] at hp
  rcases hp with ⟨t, ht⟩
  have hne : u.drop j ≠ [] := by
    intro hcon
    have := congrArg List.length hcon
    simp only [List.length_drop, List.length_nil] at this
    omega
  rcases hd : u.drop j with _ | ⟨h0, r⟩
  · exact absurd hd hne
  · rw [hd] at ht
    rw [List.cons_append, List.cons_append] at ht
    injection ht with h1 _
    apply hnotin
    rw [h1]
    exact List.drop_subset _ _ (hd ▸ List.mem_cons_self h0 r)

theorem boundary_sep {c : Char} {w Ni : List Char} (hc : c ∉ Ni) :
    ∀ p2 : List Char, p2 ≠ [] → p2 <+: (c :: w) → (∀ ch ∈ p2, ch ∈ Ni) → False := by
  intro p2 hne hp hch
  rcases p2 with _ | ⟨p0, pr⟩
  · exact hne rfl
  · rcases hp with ⟨t, ht⟩
    rw [List.cons_append] at ht
    injection ht with h1 _
    exact hc (h1 ▸ hch p0 (List.mem_cons_self p0 pr))

theorem boundary_nil {Ni : List Char} :
    ∀ p2 : List Char, p2 ≠ [] → p2 <+: ([] : List Char) → (∀ ch ∈ p2, ch ∈ Ni) → False := by
  intro p2 hne hp _
  exact hne (List.prefix_nil.mp hp)

theorem no_occ_name_token {N : List (List Char)} {i k : Nat} {v : List Char}
    (hi : i < N.length) (hk : k < N.length) (hik : i ≠ k)
    (hnodup : N.Nodup)
    (hlen : (N.getD k []).length ≤ (N.getD i []).length)
    (hvb : ∀ p2 : List Char, p2 ≠ [] → p2 <+: v →
      (∀ ch ∈ p2, ch ∈ N.getD i []) → False) :
    ∀ j, j < (N.getD k []).length →
      ¬ ((N.getD i []).isPrefixOf ((N.getD k []).drop j ++ v) = true) := by
  intro j hj hp
  rw [List.isPrefixOf_iff_prefix] at hp
  rcases prefix_append_cases hp with ⟨hl, hpre⟩ | ⟨hl, _, hpost⟩
  · -- the name fits inside the remaining part of the k-th name
    have hdlen : ((N.getD k []).drop j).length = (N.getD k []).length - j := by
      simp [List.length_drop]
    rcases Nat.eq_zero_or_pos j with hj0 | hj0
    · subst hj0
      rw [List.drop_zero] at hpre hl
      have heq : N.getD i [] = N.getD k [] :=
        hpre.eq_of_length (by omega)
      rw [List.getD_eq_getElem _ _ hi, List.getD_eq_getElem _ _ hk] at heq
      exact hik ((List.Nodup.getElem_inj_iff hnodup).mp heq)
    · rw [hdlen] at hl
      omega
  · -- the name would overflow into the following text
    refine hvb ((N.getD i []).drop ((N.getD k []).drop j).length) ?_ hpost ?_
    · intro hcon
      have h1 : ((N.getD i []).drop ((N.getD k []).drop j).length).length = 0 := by
        rw [hcon]
        rfl
      rw [List.length_drop] at h1
      omega
    · intro ch hch
      exact List.drop_subset _ _ hch

theorem not_prefix_head {oc c : Char} {os w : List Char} (hne : oc ≠ c) :
    ¬ ((oc :: os).isPrefixOf (c :: w) = true) := by
  intro hp
  rw [List.isPrefixOf_iff_prefix] at hp
  rcases hp with ⟨t, ht⟩
  rw [List.cons_append] at ht
  injection ht with h1 _
  exact hne h1

theorem mixedText_cons_name (N : List (List Char)) (m : Char) (done : Nat → Bool)
    (k : Nat) (rest : List Tok) :
    mixedText N m done (Tok.name k :: rest)
      = (if done k then m :: (Nat.repr k).data else N.getD k [])
        ++ mixedText N m done rest := by
  unfold mixedText
  rw [List.flatMap_cons]

theorem mixedText_cons_sep (N : List (List Char)) (m : Char) (done : Nat → Bool)
    (c : Char) (rest : List Tok) :
    mixedText N m done (Tok.sep c :: rest) = c :: mixedText N m done rest := by
  unfold mixedText
  rw [List.flatMap_cons]
  rfl

theorem pyreplace_mixedText
    (N : List (List Char)) (m : Char) (i : Nat) (hi : i < N.length)
    (hwfN : ∀ n ∈ N, n ≠ [])
    (hnodup : N.Nodup)
    (hchars : ∀ n ∈ N, ∀ c ∈ n, c.isDigit = false ∧ c ≠ m ∧ c ≠ '\n') :
    ∀ (ts : List Tok) (done : Nat → Bool),
    done i = false →
    (∀ t ∈ ts, tokOK N m t) →
    List.Chain' (fun a b => ¬(a.isName = true ∧ b.isName = true)) ts →
    (∀ k, k < N.length → done k = false → (N.getD k []).length ≤ (N.getD i []).length) →
    pyreplace (mixedText N m done ts) (N.getD i []) (m :: (Nat.repr i).data)
      = mixedText N m (fun k => k == i || done k) ts := by
  have hmemNi : N.getD i [] ∈ N := by
    rw [List.getD_eq_getElem _ _ hi]
    exact List.getElem_mem _
  have hNine : N.getD i [] ≠ [] := hwfN _ hmemNi
  intro ts
  induction ts with
  | nil => intro done _ _ _ _; rfl
  | cons t rest ih =>
    intro done hdone htoks hchain hrem
    have htoksr : ∀ u ∈ rest, tokOK N m u :=
      fun u hu => htoks u (List.mem_cons_of_mem _ hu)
    have hchainr : List.Chain' (fun a b => ¬(a.isName = true ∧ b.isName = true)) rest :=
      hchain.tail
    rcases t with k | c
    · -- name token at the head
      have hk : k < N.length := htoks _ (List.mem_cons_self _ _)
      -- the text following this token starts with a separator or is empty
      have hbnd : ∀ p2 : List Char, p2 ≠ [] → p2 <+: mixedText N m done rest →
          (∀ ch ∈ p2, ch ∈ N.getD i []) → False := by
        rcases rest with _ | ⟨t', rest'⟩
        · intro p2 hne hp _
          exact hne (List.prefix_nil.mp hp)
        · rcases t' with k' | c'
          · have := (List.chain'_cons.mp hchain).1
            simp [Tok.isName] at this
          · have hsep : tokOK N m (Tok.sep c') := htoksr _ (List.mem_cons_self _ _)
            have hc'new : c' ∉ N.getD i [] := hsep.2.2.2 _ hmemNi
            intro p2 hne hp hch
            rw [mixedText_cons_sep] at hp
            exact boundary_sep hc'new p2 hne hp hch
      by_cases hdk : done k = true
      · -- token already replaced: marker text, no occurrence inside
        rw [mixedText_cons_name, if_pos hdk, mixedText_cons_name,
          if_pos (show ((k == i) || done k) = true by rw [hdk, Bool.or_true])]
        rcases ho : N.getD i [] with _ | ⟨oc, os⟩
        · exact absurd ho hNine
        have hocprops := hchars _ hmemNi oc (by rw [ho]; exact List.mem_cons_self _ _)
        rw [pyreplace_append_no_occ _ _ _ _ (no_occ_of_head_notin _ _ (by
          intro hmem
          rcases List.mem_cons.mp hmem with h1 | h1
          · exact hocprops.2.1 h1
          · have hdig := repr_data_digits k oc h1
            rw [hocprops.1] at hdig
            cases hdig)), ← ho]
        rw [ih done hdone htoksr hchainr hrem]
      · -- token not yet replaced
        have hdkf : done k = false := by
          rcases hb : done k with _ | _
          · rfl
          · exact absurd hb hdk
        by_cases hki : k = i
        · -- this is the name being replaced
          subst hki
          rw [mixedText_cons_name, if_neg (by rw [hdkf]; exact Bool.false_ne_true),
            mixedText_cons_name,
            if_pos (show ((k == k) || done k) = true by simp)]
          rw [pyreplace_oldHead hNine]
          rw [ih done hdone htoksr hchainr hrem]
        · -- a different, not yet replaced name
          rw [mixedText_cons_name, if_neg (by rw [hdkf]; exact Bool.false_ne_true),
            mixedText_cons_name,
            if_neg (show ¬(((k == i) || done k) = true) by simp [hki, hdkf])]
          rw [pyreplace_append_no_occ _ _ _ _ (no_occ_name_token hi hk
            (fun he => hki he.symm) hnodup (hrem k hk hdkf) hbnd)]
          rw [ih done hdone htoksr hchainr hrem]
    · -- separator at the head
      have hsep : tokOK N m (Tok.sep c) := htoks _ (List.mem_cons_self _ _)
      have hcnew : c ∉ N.getD i [] := hsep.2.2.2 _ hmemNi
      rw [mixedText_cons_sep, mixedText_cons_sep]
      rcases ho : N.getD i [] with _ | ⟨oc, os⟩
      · exact absurd ho hNine
      have hocne : oc ≠ c := by
        intro he
        apply hcnew
        rw [← he, ho]
        exact List.mem_cons_self _ _
      rw [pyreplace_cons_skipHead _ _ _ (not_prefix_head hocne), ← ho]
      rw [ih done hdone htoksr hchainr hrem]

theorem mixedText_congr {N : List (List Char)} {m : Char} {d d' : Nat → Bool}
    (ts : List Tok) (h : ∀ k, d k = d' k) :
    mixedText N m d ts = mixedText N m d' ts := by
  have : d = d' := funext h
  rw [this]

theorem foldl_replace (N : List (List Char)) (m : Char) (ts : List Tok)
    (hwfN : ∀ n ∈ N, n ≠ [])
    (hnodup : N.Nodup)
    (hchars : ∀ n ∈ N, ∀ c ∈ n, c.isDigit = false ∧ c ≠ m ∧ c ≠ '\n')
    (htoks : ∀ t ∈ ts, tokOK N m t)
    (hchain : List.Chain' (fun a b => ¬(a.isName = true ∧ b.isName = true)) ts) :
    ∀ (S : List Nat) (done : Nat → Bool),
    S.Nodup →
    (∀ i ∈ S, i < N.length ∧ done i = false) →
    List.Pairwise (fun i j => (N.getD j []).length ≤ (N.getD i []).length) S →
    (∀ k, k < N.length → done k = false → k ∈ S) →
    S.foldl (fun c i => pyreplace c (N.getD i []) (m :: (Nat.repr i).data))
        (mixedText N m done ts)
      = mixedText N m (fun k => done k || S.contains k) ts := by
  intro S
  induction S with
  | nil =>
    intro done _ _ _ _
    rw [List.foldl_nil]
    exact mixedText_congr ts (by
      intro k
      simp)
  | cons i S' ih =>
    intro done hnodupS hmem hpair hcov
    have hiN : i < N.length := (hmem i (List.mem_cons_self _ _)).1
    have hidone : done i = false := (hmem i (List.mem_cons_self _ _)).2
    rw [List.foldl_cons]
    rw [pyreplace_mixedText N m i hiN hwfN hnodup hchars ts done hidone htoks hchain
      (by
        intro k hk hkdone
        rcases List.mem_cons.mp (hcov k hk hkdone) with h1 | h1
        · subst h1
          exact le_rfl
        · exact List.rel_of_pairwise_cons hpair h1)]
    rw [ih (fun k => k == i || done k) (List.Nodup.of_cons hnodupS)
      (by
        intro j hj
        have hji : j ≠ i := by
          intro he
          subst he
          exact (List.nodup_cons.mp hnodupS).1 hj
        refine ⟨(hmem j (List.mem_cons_of_mem _ hj)).1, ?_⟩
        have h2 := (hmem j (List.mem_cons_of_mem _ hj)).2
        simp [hji, h2])
      (List.Pairwise.of_cons hpair)
      (by
        intro k hk hkdone
        simp only [Bool.or_eq_false_iff, beq_eq_false_iff_ne] at hkdone
        rcases List.mem_cons.mp (hcov k hk hkdone.2) with h1 | h1
        · exact absurd h1 hkdone.1
        · exact h1)]
    exact mixedText_congr ts (by
      intro k
      rw [List.contains_cons]
      cases hb1 : (k == i) <;> cases hb2 : done k <;> cases hb3 : S'.contains k <;> rfl)

theorem srcText_eq_mixed (N : List (List Char)) (m : Char) (ts : List Tok) :
    srcText N ts = mixedText N m (fun _ => false) ts := rfl

theorem markedText_cons_name (m : Char) (k : Nat) (rest : List Tok) :
    markedText m (Tok.name k :: rest) = (m :: (Nat.repr k).data) ++ markedText m rest := by
  unfold markedText
  rw [List.flatMap_cons]

theorem markedText_cons_sep (m : Char) (c : Char) (rest : List Tok) :
    markedText m (Tok.sep c :: rest) = c :: markedText m rest := by
  unfold markedText
  rw [List.flatMap_cons]
  rfl

theorem mixedText_eq_marked {N : List (List Char)} {m : Char} {d : Nat → Bool} :
    ∀ ts : List Tok, (∀ k, Tok.name k ∈ ts → d k = true) →
    mixedText N m d ts = markedText m ts := by
  intro ts
  induction ts with
  | nil => intro _; rfl
  | cons t rest ih =>
    intro h
    rcases t with k | c
    · rw [mixedText_cons_name, markedText_cons_name,
        if_pos (h k (List.mem_cons_self _ _)),
        ih (fun k' hk' => h k' (List.mem_cons_of_mem _ hk'))]
    · rw [mixedText_cons_sep, markedText_cons_sep,
        ih (fun k' hk' => h k' (List.mem_cons_of_mem _ hk'))]

theorem indexOf_decEq (a : List Char) (l : List (List Char)) :
    List.indexOf a l = @List.indexOf _ instBEqOfDecidableEq a l := by
  show List.findIdx (fun b => b == a) l
      = List.findIdx (fun b => @BEq.beq _ instBEqOfDecidableEq b a) l
  congr 1
  funext b
  have h : @BEq.beq _ instBEqOfDecidableEq b a = decide (b = a) := rfl
  rw [h]
  by_cases hba : b = a
  · subst hba
    simp
  · simp [hba]

theorem sortedIdx_facts (N : List (List Char)) (hnodup : N.Nodup) :
    ((sortLenDesc N).map (fun item => List.indexOf item N)).Nodup
    ∧ (∀ i ∈ (sortLenDesc N).map (fun item => List.indexOf item N), i < N.length)
    ∧ (∀ k, k < N.length → k ∈ (sortLenDesc N).map (fun item => List.indexOf item N))
    ∧ List.Pairwise (fun i j => (N.getD j []).length ≤ (N.getD i []).length)
        ((sortLenDesc N).map (fun item => List.indexOf item N)) := by
  simp only [indexOf_decEq]
  have hperm : List.Perm (sortLenDesc N) N := List.perm_insertionSort _ N
  have hmemN : ∀ a, a ∈ sortLenDesc N ↔ a ∈ N := fun a => hperm.mem_iff
  have hidx : ∀ a ∈ N, @List.indexOf _ instBEqOfDecidableEq a N < N.length := fun a ha =>
    List.indexOf_lt_length.mpr ha
  refine ⟨?_, ?_, ?_, ?_⟩
  · refine List.Nodup.map_on ?_ (hperm.nodup_iff.mpr hnodup)
    intro x hx y hy hxy
    have hxm : x ∈ N := (hmemN x).mp hx
    have hym : y ∈ N := (hmemN y).mp hy
    have hfin : (⟨_, hidx x hxm⟩ : Fin N.length) = (⟨_, hidx y hym⟩ : Fin N.length) :=
      Fin.ext hxy
    exact ((List.indexOf_get (hidx x hxm)).symm.trans (congrArg N.get hfin)).trans
      (List.indexOf_get (hidx y hym))
  · intro i hi
    rcases List.mem_map.mp hi with ⟨a, ha, rfl⟩
    exact hidx a ((hmemN a).mp ha)
  · intro k hk
    refine List.mem_map.mpr ⟨N[k], (hmemN _).mpr (List.getElem_mem _), ?_⟩
    exact List.indexOf_getElem hnodup k hk
  · haveI htot : IsTotal (List Char) (fun a b => b.length ≤ a.length) :=
      ⟨fun a b => le_total b.length a.length⟩
    haveI htr : IsTrans (List Char) (fun a b => b.length ≤ a.length) :=
      ⟨fun _ _ _ hab hbc => le_trans hbc hab⟩
    have hsorted : List.Pairwise (fun a b => b.length ≤ a.length) (sortLenDesc N) :=
      List.sorted_insertionSort _ N
    rw [List.pairwise_map]
    refine hsorted.imp_of_mem ?_
    intro a b ha hb hab
    have ha' : a ∈ N := (hmemN a).mp ha
    have hb' : b ∈ N := (hmemN b).mp hb
    rw [List.getD_eq_getElem _ _ (hidx a ha'), List.getD_eq_getElem _ _ (hidx b hb'),
      List.getElem_indexOf, List.getElem_indexOf]
    exact hab

theorem replace_variables_marked (N : List (List Char)) (m : Char) (ts : List Tok)
    (hwf : RoundtripWF N m ts) :
    replace_variables (srcText N ts) N [m] = markedText m ts := by
  obtain ⟨hne, hnodup, hchars, htoks, hchain, hcov, _, _⟩ := hwf
  have hnc : N.contains [m] = false := by
    rcases hb : N.contains [m] with _ | _
    · rfl
    · exfalso
      have hmem : [m] ∈ N := List.elem_iff.mp hb
      exact (hchars [m] hmem m (List.mem_cons_self m [])).2.1 rfl
  have hmarker : (if N.contains [m] then internalMarker else [m]) = [m] := by
    rw [hnc]
    rfl
  show pyreplace
      (((sortLenDesc N).map (fun item => List.indexOf item N)).foldl
        (fun c i => pyreplace c (N.getD i [])
          ((if N.contains [m] then internalMarker else [m]) ++ (Nat.repr i).data))
        (srcText N ts))
      (if N.contains [m] then internalMarker else [m]) [m] = markedText m ts
  rw [hmarker]
  rcases sortedIdx_facts N hnodup with ⟨hS1, hS2, hS3, hS4⟩
  rw [srcText_eq_mixed N m ts]
  have hfold := foldl_replace N m ts hne hnodup hchars htoks hchain
    ((sortLenDesc N).map (fun item => List.indexOf item N)) (fun _ => false)
    hS1 (fun i hi => ⟨hS2 i hi, rfl⟩) hS4 (fun k hk _ => hS3 k hk)
  rw [show (fun (c : List Char) (i : Nat) =>
      pyreplace c (N.getD i []) ([m] ++ (Nat.repr i).data))
    = fun (c : List Char) (i : Nat) =>
      pyreplace c (N.getD i []) (m :: (Nat.repr i).data) from rfl]
  rw [hfold]
  rw [mixedText_eq_marked ts (by
    intro k hk
    have hkN : k < N.length := htoks _ hk
    have hmem : k ∈ (sortLenDesc N).map (fun item => List.indexOf item N) := hS3 k hkN
    rw [Bool.false_or]
    exact List.elem_iff.mpr hmem)]
  exact pyreplace_self [m] (by simp) _

theorem findVarGo_fuel (base : List Char) (hbase : base ≠ []) :
    ∀ (f1 : Nat) {f2 : Nat} (s : List Char), s.length ≤ f1 → s.length ≤ f2 →
    findVarGo base f1 s = findVarGo base f2 s := by
  intro f1
  induction f1 with
  | zero =>
    intro f2 s h1 _
    have hs : s = [] := List.length_eq_zero.mp (Nat.le_zero.mp h1)
    subst hs
    cases f2 <;> rfl
  | succ f ih =>
    intro f2 s h1 h2
    cases s with
    | nil => cases f2 <;> rfl
    | cons c t =>
      cases f2 with
      | zero => simp at h2
      | succ g =>
        show findVarGo base (f + 1) (c :: t) = findVarGo base (g + 1) (c :: t)
        simp only [findVarGo]
        by_cases hcond : base.isPrefixOf (c :: t) = true
          ∧ (((c :: t).drop base.length).headD ' ').isDigit = true
        · rw [if_pos hcond, if_pos hcond]
          have hol : 1 ≤ base.length := List.length_pos.mpr hbase
          have hd1 : (((c :: t).drop base.length).dropWhile Char.isDigit).length
              ≤ ((c :: t).drop base.length).length :=
            (List.dropWhile_sublist _).length_le
          congr 1
          apply ih <;> simp only [List.length_drop, List.length_cons] at * <;> omega
        · rw [if_neg hcond, if_neg hcond]
          apply ih <;> simp only [List.length_cons] at h1 h2 <;> omega

theorem takeWhile_all_append {p : Char → Bool} (ds v : List Char)
    (h : ∀ c ∈ ds, p c = true) :
    (ds ++ v).takeWhile p = ds ++ v.takeWhile p := by
  induction ds with
  | nil => simp
  | cons d ds' ih =>
    rw [List.cons_append, List.takeWhile_cons, h d (List.mem_cons_self d ds'),
      ih (fun c hc => h c (List.mem_cons_of_mem _ hc))]
    rfl

theorem dropWhile_all_append {p : Char → Bool} (ds v : List Char)
    (h : ∀ c ∈ ds, p c = true) :
    (ds ++ v).dropWhile p = v.dropWhile p := by
  induction ds with
  | nil => simp
  | cons d ds' ih =>
    rw [List.cons_append, List.dropWhile_cons, h d (List.mem_cons_self d ds'),
      ih (fun c hc => h c (List.mem_cons_of_mem _ hc))]
    rfl

theorem findVar_skip {m c : Char} (hc : c ≠ m) (w : List Char) :
    findVar [m] (c :: w) = findVar [m] w := by
  show findVarGo [m] (w.length + 1) (c :: w) = findVarGo [m] w.length w
  simp only [findVarGo]
  rw [if_neg (by
    intro hcond
    rcases List.isPrefixOf_iff_prefix.mp hcond.1 with ⟨u, hu⟩
    rw [List.singleton_append] at hu
    injection hu with h2 h3
    exact hc h2.symm)]

theorem findVar_match {m : Char} (ds v : List Char)
    (hds : ds ≠ []) (hdig : ∀ c ∈ ds, c.isDigit = true)
    (hv : ((v.headD ' ').isDigit) = false) :
    findVar [m] ((m :: ds) ++ v) = (m :: ds) :: findVar [m] v := by
  have hvtake : v.takeWhile Char.isDigit = [] := by
    cases v with
    | nil => rfl
    | cons a w =>
      rw [List.takeWhile_cons, show a.isDigit = false from hv]
      rfl
  have hvdrop : v.dropWhile Char.isDigit = v := by
    cases v with
    | nil => rfl
    | cons a w =>
      rw [List.dropWhile_cons, show a.isDigit = false from hv]
      rfl
  have hhead : ((ds ++ v).headD ' ').isDigit = true := by
    cases ds with
    | nil => exact absurd rfl hds
    | cons d ds' =>
      show d.isDigit = true
      exact hdig d (by simp)
  show findVarGo [m] ((ds ++ v).length + 1) (m :: (ds ++ v)) = _
  simp only [findVarGo]
  rw [if_pos ⟨by
      rw [List.isPrefixOf_iff_prefix]
      exact ⟨ds ++ v, rfl⟩, hhead⟩]
  show ([m] ++ (ds ++ v).takeWhile Char.isDigit)
      :: findVarGo [m] (ds ++ v).length ((ds ++ v).dropWhile Char.isDigit)
    = (m :: ds) :: findVar [m] v
  rw [takeWhile_all_append ds v hdig, hvtake, List.append_nil,
    dropWhile_all_append ds v hdig, hvdrop, List.singleton_append]
  congr 1
  apply findVarGo_fuel [m] (by simp)
  · simp
  · exact le_rfl

theorem findVar_marked (N : List (List Char)) (m : Char) :
    ∀ ts : List Tok, m.isDigit = false → (∀ t ∈ ts, tokOK N m t) →
    List.Chain' (fun a b => ¬(a.isName = true ∧ b.isName = true)) ts →
    findVar [m] (markedText m ts) = ts.filterMap (fun t => match t with
      | Tok.name k => some (m :: (Nat.repr k).data)
      | Tok.sep _ => none) := by
  intro ts
  induction ts with
  | nil => intro _ _ _; rfl
  | cons t rest ih =>
    intro hm htoks hchain
    rcases t with k | c
    · rw [markedText_cons_name]
      have hnext : (((markedText m rest).headD ' ').isDigit) = false := by
        cases rest with
        | nil =>
          show (' '.isDigit) = false
          decide
        | cons t2 r2 =>
          rcases t2 with k2 | c2
          · exfalso
            have := List.chain'_cons.mp hchain
            exact this.1 ⟨rfl, rfl⟩
          · rw [markedText_cons_sep]
            exact (htoks (Tok.sep c2) (by simp)).1
      rw [findVar_match (Nat.repr k).data (markedText m rest)
        (repr_data_ne_nil k) (repr_data_digits k) hnext]
      rw [ih hm (fun t' ht' => htoks t' (List.mem_cons_of_mem _ ht'))
        (List.Chain'.tail hchain)]
      rfl
    · rw [markedText_cons_sep]
      have hcm : c ≠ m := (htoks (Tok.sep c) (List.mem_cons_self _ _)).2.1
      rw [findVar_skip hcm]
      rw [ih hm (fun t' ht' => htoks t' (List.mem_cons_of_mem _ ht'))
        (List.Chain'.tail hchain)]
      rfl

theorem newline_notin_marked (N : List (List Char)) (m : Char) (ts : List Tok)
    (hm : m ≠ '\n') (htoks : ∀ t ∈ ts, tokOK N m t) :
    '\n' ∉ markedText m ts := by
  intro hmem
  rcases List.mem_flatMap.mp hmem with ⟨t, ht, hc⟩
  rcases t with k | c
  · rcases List.mem_cons.mp hc with h1 | h1
    · exact hm h1.symm
    · have := repr_data_digits k '\n' h1
      simp at this
  · rcases List.mem_singleton.mp hc with rfl
    exact absurd rfl (htoks (Tok.sep '\n') ht).2.2.1

theorem pydedup_go_mem (x : List Char) :
    ∀ (l acc : List (List Char)),
    (x ∈ l.foldl (fun a v => if v ∈ a then a else a ++ [v]) acc ↔ x ∈ acc ∨ x ∈ l) := by
  intro l
  induction l with
  | nil => intro acc; simp
  | cons v l' ih =>
    intro acc
    rw [List.foldl_cons, ih]
    by_cases hv : v ∈ acc
    · rw [if_pos hv]
      constructor
      · rintro (h | h)
        · exact Or.inl h
        · exact Or.inr (List.mem_cons_of_mem _ h)
      · rintro (h | h)
        · exact Or.inl h
        · rcases List.mem_cons.mp h with rfl | h
          · exact Or.inl hv
          · exact Or.inr h
    · rw [if_neg hv]
      constructor
      · rintro (h | h)
        · rcases List.mem_append.mp h with h1 | h1
          · exact Or.inl h1
          · rcases List.mem_singleton.mp h1 with rfl
            exact Or.inr (List.mem_cons_self _ _)
        · exact Or.inr (List.mem_cons_of_mem _ h)
      · rintro (h | h)
        · exact Or.inl (List.mem_append.mpr (Or.inl h))
        · rcases List.mem_cons.mp h with rfl | h
          · exact Or.inl (List.mem_append.mpr (Or.inr (List.mem_singleton.mpr rfl)))
          · exact Or.inr h

theorem pydedup_mem (x : List Char) (l : List (List Char)) :
    x ∈ pydedup l ↔ x ∈ l := by
  unfold pydedup
  rw [pydedup_go_mem]
  simp

theorem pydedup_go_nodup :
    ∀ (l acc : List (List Char)), acc.Nodup →
    (l.foldl (fun a v => if v ∈ a then a else a ++ [v]) acc).Nodup := by
  intro l
  induction l with
  | nil => intro acc h; exact h
  | cons v l' ih =>
    intro acc hacc
    rw [List.foldl_cons]
    by_cases hv : v ∈ acc
    · rw [if_pos hv]
      exact ih acc hacc
    · rw [if_neg hv]
      refine ih _ ?_
      rw [List.nodup_append]
      exact ⟨hacc, List.nodup_singleton v, by
        intro a ha hb
        rcases List.mem_singleton.mp hb with rfl
        exact hv ha⟩

theorem pydedup_nodup (l : List (List Char)) : (pydedup l).Nodup :=
  pydedup_go_nodup l [] List.nodup_nil

theorem get_variables_marked (N : List (List Char)) (m : Char) (ts : List Tok)
    (hm : m.isDigit = false) (hm2 : m ≠ '\n') (htoks : ∀ t ∈ ts, tokOK N m t)
    (hchain : List.Chain' (fun a b => ¬(a.isName = true ∧ b.isName = true)) ts) :
    get_variables (markedText m ts) [m] = roundtripExpected m ts := by
  unfold get_variables
  rw [pysplit_of_not_mem (newline_notin_marked N m ts hm2 htoks)]
  rw [List.foldl_cons, List.foldl_nil]
  rw [findVar_marked N m ts hm htoks hchain]
  rfl

/-- C5 (amended): the round trip holds on texts shaped as an
interleaving of variable-name occurrences and separator characters,
provided the names are nonempty, distinct and free of digits, the
marker and newlines, the separator characters are digit-free,
marker-free, newline-free and occur in no name, no two name
occurrences are adjacent, every position of the name list occurs, and
the one-character marker is not a digit or newline: `get_variables`
applied to the output of `replace_variables` then recovers exactly the
marker-indexed names `marker + str(k)` of the name occurrences, in
first-seen order and deduplicated; in particular every position `k` of
the name list is recovered, every recovered name is `marker + str(k)`
for some position `k`, and the recovered names are distinct, so the
recovered indices correspond exactly to the positions of the names.
Without these restrictions the recovery can be corrupted by later
substitutions hitting earlier marker-index tokens. -/
theorem c5_amended (N : List (List Char)) (m : Char) (ts : List Tok)
    (hwf : RoundtripWF N m ts) :
    get_variables (replace_variables (srcText N ts) N [m]) [m] = roundtripExpected m ts
    ∧ (∀ k, k < N.length →
        (m :: (Nat.repr k).data)
          ∈ get_variables (replace_variables (srcText N ts) N [m]) [m])
    ∧ (∀ v ∈ get_variables (replace_variables (srcText N ts) N [m]) [m],
        ∃ k, k < N.length ∧ v = m :: (Nat.repr k).data)
    ∧ (get_variables (replace_variables (srcText N ts) N [m]) [m]).Nodup := by
  obtain ⟨hne, hnodup, hchars, htoks, hchain, hcov, hm, hm2⟩ := hwf
  rw [replace_variables_marked N m ts
    ⟨hne, hnodup, hchars, htoks, hchain, hcov, hm, hm2⟩]
  rw [get_variables_marked N m ts hm hm2 htoks hchain]
  refine ⟨rfl, ?_, ?_, ?_⟩
  · intro k hk
    rw [roundtripExpected, pydedup_mem]
    exact List.mem_filterMap.mpr ⟨Tok.name k, hcov k hk, rfl⟩
  · intro v hv
    rw [roundtripExpected, pydedup_mem] at hv
    rcases List.mem_filterMap.mp hv with ⟨t, ht, hft⟩
    rcases t with k | c
    · have hk : k < N.length := htoks _ ht
      have hft2 : some (m :: (Nat.repr k).data) = some v := hft
      injection hft2 with h
      exact ⟨k, hk, h.symm⟩
    · have hft2 : (none : Option (List Char)) = some v := hft
      exact Option.noConfusion hft2
  · exact pydedup_nodup _

/-- Closed instantiation of the amended round trip: names `ab`, `cd`,
marker `x`, text `ab cd`. -/
theorem c5_amended_witness :
    RoundtripWF ["ab".data, "cd".data] 'x' [Tok.name 0, Tok.sep ' ', Tok.name 1]
    ∧ get_variables (replace_variables
          (srcText ["ab".data, "cd".data] [Tok.name 0, Tok.sep ' ', Tok.name 1])
          ["ab".data, "cd".data] ['x']) ['x']
        = roundtripExpected 'x' [Tok.name 0, Tok.sep ' ', Tok.name 1] :=
  have hwf : RoundtripWF ["ab".data, "cd".data] 'x'
      [Tok.name 0, Tok.sep ' ', Tok.name 1] :=
    ⟨by decide, by decide, by decide, by decide,
     by simp [List.chain'_cons, Tok.isName], by decide, by decide, by decide⟩
  ⟨hwf, (c5_amended ["ab".data, "cd".data] 'x' [Tok.name 0, Tok.sep ' ', Tok.name 1]
     hwf).1⟩
